import Mathlib

/-!
Verification of the gita-insights-ai question-answering core against its
design specification.  The Python source is shallowly embedded: strings are
`List Char`, Python dicts are association lists with overwriting insert,
floats that only ever hold exact decimal fractions are modelled as `ℚ`,
and functions that can raise are modelled with `Except`.  Only ASCII case
conversion is modelled (all corpus constants and inputs used are ASCII).
-/

set_option maxHeartbeats 1000000

set_option maxRecDepth 4000

/-- Decidable equality for `Except`, used to evaluate the models of
Python functions that may raise. -/
instance {e a : Type} [DecidableEq e] [DecidableEq a] : DecidableEq (Except e a) := fun x y =>
  match x, y with
  | .ok u, .ok v =>
    if h : u = v then isTrue (by rw [h]) else isFalse (fun hc => by cases hc; exact h rfl)
  | .error u, .error v =>
    if h : u = v then isTrue (by rw [h]) else isFalse (fun hc => by cases hc; exact h rfl)
  | .ok _, .error _ => isFalse (fun hc => by cases hc)
  | .error _, .ok _ => isFalse (fun hc => by cases hc)

/-- Python text is modelled as a list of characters. -/
abbrev Str := List Char

/-- ASCII uppercase test (model of Python `str.isupper` on one char). -/
def isUpperCh (c : Char) : Bool := 65 ≤ c.toNat && c.toNat ≤ 90

/-- ASCII lowercase test. -/
def isLowerCh (c : Char) : Bool := 97 ≤ c.toNat && c.toNat ≤ 122

/-- ASCII digit test. -/
def isDigitCh (c : Char) : Bool := 48 ≤ c.toNat && c.toNat ≤ 57

/-- ASCII letter test. -/
def isAlphaCh (c : Char) : Bool := isUpperCh c || isLowerCh c

/-- ASCII alphanumeric test. -/
def isAlnumCh (c : Char) : Bool := isAlphaCh c || isDigitCh c

/-- Python `str` whitespace (space, tab, newline, carriage return, VT, FF),
by character code. -/
def isSpaceCh (c : Char) : Bool :=
  c.toNat = 32 || c.toNat = 9 || c.toNat = 10 || c.toNat = 13 || c.toNat = 11 || c.toNat = 12

/-- ASCII lower-casing of one character (model of `str.lower`). -/
def lowerCh (c : Char) : Char :=
  if isUpperCh c then Char.ofNat (c.toNat + 32) else c

/-- ASCII upper-casing of one character. -/
def upperCh (c : Char) : Char :=
  if isLowerCh c then Char.ofNat (c.toNat - 32) else c

/-- Model of Python `str.lower`. -/
def lowerStr (s : Str) : Str := s.map lowerCh

/-- Model of Python `str.upper`. -/
def upperStr (s : Str) : Str := s.map upperCh

/-- Helper for `splitWs`: accumulates the current word (reversed). -/
def splitWsAux : Str → Str → List Str
  | [], acc => if acc.isEmpty then [] else [acc.reverse]
  | c :: rest, acc =>
    if isSpaceCh c then
      if acc.isEmpty then splitWsAux rest [] else acc.reverse :: splitWsAux rest []
    else splitWsAux rest (c :: acc)

/-- Model of Python `str.split()` with no argument: split on whitespace runs,
dropping empty pieces. -/
def splitWs (s : Str) : List Str := splitWsAux s []

/-- Strip leading characters satisfying `isSpaceCh` (model of `str.lstrip`). -/
def lstripStr (s : Str) : Str := s.dropWhile (fun c => isSpaceCh c)

/-- Model of Python `str.strip()`. -/
def stripStr (s : Str) : Str :=
  ((s.dropWhile (fun c => isSpaceCh c)).reverse.dropWhile (fun c => isSpaceCh c)).reverse

/-- Boolean infix (substring) test, the model of Python `needle in haystack`
on strings. -/
def isSubstr (needle haystack : Str) : Bool := decide (needle <:+: haystack)

/- ----------------------------------------------------------------- -/
/- DocumentMatcher: QASystem.get_relevant_documents (src/app.py)      -/
/- ----------------------------------------------------------------- -/

/-- A page document as built by `load_and_process_pdf`
(`Document(page_content, {"page": …, "source": …})`). -/
structure Document where
  page_content : Str
  page : Nat
  source : Str
deriving DecidableEq, Repr

/-- The preprocessed query term set of `get_relevant_documents`:
lower-case the query, split on whitespace, keep terms of length > 2,
deduplicate (Python `set`; only membership and cardinality are used). -/
def queryTerms (query : Str) : List Str :=
  ((splitWs (lowerStr query)).filter (fun t => 2 < t.length)).dedup

/-- Model of the inner `score_document`: the number of distinct query terms
occurring as substrings of the lower-cased document text; a document
qualifies only with at least two matching terms, scoring
`term_matches / len(query_terms)`. -/
def scoreDocument (qts : List Str) (docText : Str) : ℚ :=
  let m := (qts.filter (fun t => isSubstr t (lowerStr docText))).length
  if 2 ≤ m then (if qts ≠ [] then (m : ℚ) / qts.length else 0) else 0

/-- The `scored_docs` list: every document whose score is positive, paired
with its score, in corpus order. -/
def scoredDocs (query : Str) (docs : List Document) : List (ℚ × Document) :=
  (docs.map (fun d => (scoreDocument (queryTerms query) d.page_content, d))).filter
    (fun p => 0 < p.1)

/-- Descending-by-score comparison used for `scored_docs.sort(reverse=True,
key=lambda x: x[0])`.  Python list sort is stable (ties keep corpus order),
so it is modelled by the stable `List.insertionSort`. -/
def scoreGe (a b : ℚ × Document) : Prop := b.1 ≤ a.1

instance : DecidableRel scoreGe := fun a b => inferInstanceAs (Decidable (b.1 ≤ a.1))

instance : IsTotal (ℚ × Document) scoreGe := ⟨fun a b => le_total b.1 a.1⟩

instance : IsTrans (ℚ × Document) scoreGe := ⟨fun _ _ _ h1 h2 => le_trans h2 h1⟩

/-- The sorted scored list of `get_relevant_documents`. -/
def rankedDocs (query : Str) (docs : List Document) : List (ℚ × Document) :=
  List.insertionSort scoreGe (scoredDocs query docs)

/-- Model of `QASystem.get_relevant_documents`.  With no documents loaded the
Python code raises `ValueError`, modelled as `Except.error`; otherwise it
returns the top-k scored documents when the best score exceeds 0.3, and the
slice `documents[len//2 : len//2 + k]` otherwise. -/
def getRelevantDocuments (query : Str) (docs : List Document) (k : Nat) :
    Except Str (List Document) :=
  if docs = [] then
    .error ("No documents loaded. Call load_and_process_pdf() first.".toList)
  else
    match rankedDocs query docs with
    | [] => .ok ((docs.drop (docs.length / 2)).take k)
    | top :: rest =>
      if (3 : ℚ)/10 < top.1 then .ok (((top :: rest).take k).map Prod.snd)
      else .ok ((docs.drop (docs.length / 2)).take k)

/- ----------------------------------------------------------------- -/
/- NameCorrector (src/name_corrector.py, src/gita_characters.py)      -/
/- ----------------------------------------------------------------- -/

/-- One entry of the `CHARACTERS` database (src/gita_characters.py).  The
`description` and `role` fields are not consulted by any code under
verification and are omitted. -/
structure CharacterInfo where
  primary_name : Str
  aliases : List Str
deriving DecidableEq, Repr

/-- The `CHARACTERS` dictionary of src/gita_characters.py, in insertion
order (the dict keys themselves are never used by the name-map builders). -/
def gitaCharacters : List CharacterInfo := [
  ⟨"Krishna".toList, (["Krsna", "Govinda", "Madhava", "Hari", "Vasudeva", "Keshava", "Mukunda"]).map String.toList⟩,
  ⟨"Arjuna".toList, (["Partha", "Dhananjaya", "Gudakesha", "Kaunteya", "Parantapa", "Bharata"]).map String.toList⟩,
  ⟨"Yudhishthira".toList, (["Dharmaraja", "Ajatashatru", "Bharata", "Pandava"]).map String.toList⟩,
  ⟨"Bhima".toList, (["Vrikodara", "Bhimasena", "Jarasandha-jit"]).map String.toList⟩,
  ⟨"Nakula".toList, (["Madri-nandana"]).map String.toList⟩,
  ⟨"Sahadeva".toList, (["Madri-suta"]).map String.toList⟩,
  ⟨"Duryodhana".toList, (["Suyodhana", "Kaurava"]).map String.toList⟩,
  ⟨"Dushasana".toList, []⟩,
  ⟨"Dronacharya".toList, (["Drona", "Dronacarya"]).map String.toList⟩,
  ⟨"Kripacharya".toList, (["Kripa"]).map String.toList⟩,
  ⟨"Bhishma".toList, (["Devavrata", "Gangeya", "Shantanu-nandana"]).map String.toList⟩,
  ⟨"Dhritarashtra".toList, []⟩,
  ⟨"Vidura".toList, (["Kshatri"]).map String.toList⟩,
  ⟨"Sanjaya".toList, []⟩,
  ⟨"Karna".toList, (["Radheya", "Vaikartana", "Sutaputra"]).map String.toList⟩,
  ⟨"Drupada".toList, (["Yajnasena"]).map String.toList⟩,
  ⟨"Draupadi".toList, (["Krishnaa", "Panchali", "Yajnaseni"]).map String.toList⟩,
  ⟨"Shakuni".toList, (["Saubala"]).map String.toList⟩,
  ⟨"Indra".toList, (["Sakra", "Devaraja", "Purandara"]).map String.toList⟩,
  ⟨"Surya".toList, (["Vivasvan", "Aditya"]).map String.toList⟩,
  ⟨"Yama".toList, (["Dharmaraja", "Mrityu"]).map String.toList⟩,
  ⟨"Vayu".toList, (["Pavana", "Matali"]).map String.toList⟩,
  ⟨"Vyasa".toList, (["Vedavyasa", "Krishna Dvaipayana"]).map String.toList⟩,
  ⟨"Parashurama".toList, (["Bhargava", "Jamadagnya"]).map String.toList⟩,
  ⟨"Abhimanyu".toList, (["Arjuni", "Subhadra-nandana"]).map String.toList⟩,
  ⟨"Gandhari".toList, []⟩,
  ⟨"Kunti".toList, (["Pritha"]).map String.toList⟩,
  ⟨"Madri".toList, []⟩]

/-- The `common_misspellings` dictionary of `_build_name_map`, in insertion
order. -/
def commonMisspellings : List (Str × List Str) := [
  ("krishna".toList, (["krsna", "krushna", "krishn", "krishana", "krisna", "krshna"]).map String.toList),
  ("krsna".toList, (["krishna", "krushna", "krishn", "krishana", "krisna", "krshna"]).map String.toList),
  ("arjuna".toList, (["arjun", "arjoon", "arjoona", "arjunn"]).map String.toList),
  ("bhishma".toList, (["bheeshma", "bheeshm", "bhishm", "bheesma", "bheeshmaa"]).map String.toList),
  ("duryodhana".toList, (["duryodhan", "duryodhna", "duryodhan", "duryodhanna"]).map String.toList),
  ("yudhishthira".toList, (["yudhisthira", "yudhishtir", "yudhisthir", "dharmaraja"]).map String.toList),
  ("draupadi".toList, (["dropadi", "draupadi", "draupadi", "panchali", "krishnaa"]).map String.toList),
  ("karna".toList, (["karn", "karan", "karana", "radheya"]).map String.toList),
  ("dronacharya".toList, (["drona", "dron", "dronacarya"]).map String.toList),
  ("maharathi".toList, (["maharath", "maharathi", "maharathin"]).map String.toList),
  ("deva".toList, (["dev", "devta", "daiva"]).map String.toList),
  ("asura".toList, (["asur", "asurta"]).map String.toList)]

/-- Python dict lookup (`m.get(k)` / `k in m`): first association wins; the
builders below keep keys unique. -/
def dictGet? (m : List (Str × Str)) (k : Str) : Option Str :=
  match m with
  | [] => none
  | (k', v) :: rest => if k' = k then some v else dictGet? rest k

/-- Python dict assignment `m[k] = v`: overwriting an existing key keeps its
original insertion position, a new key is appended. -/
def dictSet (m : List (Str × Str)) (k v : Str) : List (Str × Str) :=
  if m.any (fun p => decide (p.1 = k)) then
    m.map (fun p => if p.1 = k then (k, v) else p)
  else m ++ [(k, v)]

/-- Lookup in an association list of string-lists (`common_misspellings`). -/
def assocFind (m : List (Str × List Str)) (k : Str) : Option (List Str) :=
  match m with
  | [] => none
  | (k', v) :: rest => if k' = k then some v else assocFind rest k

/-- The per-character step of `_build_name_map`: map the primary name to
itself, every alias to the primary, and the listed misspellings of each
alias to the primary. -/
def nameMapStep (m : List (Str × Str)) (ci : CharacterInfo) : List (Str × Str) :=
  let primary := lowerStr ci.primary_name
  let m := dictSet m primary primary
  ci.aliases.foldl (fun m al =>
    let alLower := lowerStr al
    let m := dictSet m alLower primary
    match assocFind commonMisspellings alLower with
    | some variations => variations.foldl (fun m v => dictSet m v primary) m
    | none => m) m

/-- Model of `NameCorrector._build_name_map`: the character pass followed by
the `common_misspellings` pass (variations of any name already in the map
are mapped to that dictionary key). -/
def buildNameMap : List (Str × Str) :=
  let m := gitaCharacters.foldl nameMapStep []
  commonMisspellings.foldl (fun m pv =>
    if (m.any (fun p => decide (p.1 = pv.1))) then
      pv.2.foldl (fun m v => dictSet m v pv.1) m
    else m) m

/-- `defaultdict(list)` append used by `_build_phonetic_map`: push `v` onto
the bucket of `key`, creating the bucket if absent. -/
def phonMapAdd (pm : List (Str × List (Str × Str))) (key : Str) (v : Str × Str) :
    List (Str × List (Str × Str)) :=
  if pm.any (fun b => decide (b.1 = key)) then
    pm.map (fun b => if b.1 = key then (b.1, b.2 ++ [v]) else b)
  else pm ++ [(key, [v])]

/-- Model of `NameCorrector._build_phonetic_map`.  The three jellyfish hash
functions (soundex, metaphone, nysiis) are external library code and are
taken as parameters; nothing proved below depends on their values. -/
def buildPhoneticMap (sdx mp ny : Str → Str) : List (Str × List (Str × Str)) :=
  gitaCharacters.foldl (fun pm ci =>
    let primary := lowerStr ci.primary_name
    let namesToAdd := primary :: ci.aliases.map lowerStr
    namesToAdd.foldl (fun pm nm =>
      let pm := phonMapAdd pm (sdx nm) (nm, primary)
      let pm := phonMapAdd pm (mp nm) (nm, primary)
      phonMapAdd pm (ny nm) (nm, primary)) pm) []

/-- Bucket lookup in the phonetic map (missing hash gives no matches). -/
def phonBucket (pm : List (Str × List (Str × Str))) (h : Str) : List (Str × Str) :=
  match pm with
  | [] => []
  | (k, b) :: rest => if k = h then b else phonBucket rest h

/-- Model of `NameCorrector._get_phonetic_matches`: the set of entries
sharing any of the three phonetic hashes with the input.  Python's `set`
iteration order is unspecified; the model fixes bucket order followed by
deduplication, and no theorem depends on this order. -/
def getPhoneticMatches (sdx mp ny : Str → Str) (name : Str) : List (Str × Str) :=
  let n := lowerStr name
  let pm := buildPhoneticMap sdx mp ny
  ((phonBucket pm (sdx n) ++ phonBucket pm (mp n)) ++ phonBucket pm (ny n)).dedup

/-- The standard Levenshtein edit distance, the semantics of
`jellyfish.levenshtein_distance`. -/
def levDistance : Str → Str → Nat
  | [], t => t.length
  | a :: s, [] => (a :: s).length
  | a :: s, b :: t =>
    if a = b then levDistance s t
    else 1 + min (levDistance s t) (min (levDistance (a :: s) t) (levDistance s (b :: t)))
termination_by s t => (s.length, t.length)

/-- Model of `NameCorrector._get_edit_distance_score`:
`1 - distance / max(len(s1), len(s2))`, and 1.0 for two empty strings. -/
def editDistanceScore (s1 s2 : Str) : ℚ :=
  let maxLen := max s1.length s2.length
  if maxLen = 0 then 1
  else 1 - ((levDistance s1 s2 : ℚ) / (maxLen : ℚ))

/-- The partial-containment pass of `correct_name`: the first map entry
whose key contains (or is contained in) the input with length ratio at least
the threshold wins, with a 0.9 penalty on the ratio. -/
def partialScan (θ : ℚ) (name : Str) : List (Str × Str) → Option (Str × ℚ)
  | [] => none
  | (known, primary) :: rest =>
    if isSubstr name known || isSubstr known name then
      let r := ((min name.length known.length : ℚ)) / ((max name.length known.length : ℚ))
      if θ ≤ r then some (primary, r * (9/10)) else partialScan θ name rest
    else partialScan θ name rest

/-- `all_names = set(name_map.keys()) | set(name_map.values())` (iteration
order of a Python set is unspecified; no theorem depends on the order). -/
def allKnownNames : List Str :=
  (buildNameMap.map Prod.fst ++ buildNameMap.map Prod.snd).dedup

/-- One step of the best-edit-distance loop of `correct_name`: update when
the score strictly improves and meets the threshold. -/
def editStepFun (θ : ℚ) (name : Str) (acc : Option Str × ℚ) (kn : Str) :
    Option Str × ℚ :=
  let score := editDistanceScore name kn
  if acc.2 < score ∧ θ ≤ score then (some kn, score) else acc

/-- The best-edit-distance pass of `correct_name` (`best_match`,
`best_score` start as `None`, `0.0`). -/
def editBest (θ : ℚ) (name : Str) (names : List Str) : Option Str × ℚ :=
  names.foldl (editStepFun θ name) (none, 0)

/-- Python truthiness of `best_match` (`None` and the empty string are
falsy). -/
def pyTruthyOpt : Option Str → Bool
  | none => false
  | some s => !s.isEmpty

/-- Python `max(matches, key=...)`: the first element attaining the maximal
key (a strictly greater key replaces the current best). -/
def maxByEditScore (name : Str) (m0 : Str × Str) (ms : List (Str × Str)) : Str × Str :=
  ms.foldl (fun b x =>
    if editDistanceScore name b.1 < editDistanceScore name x.1 then x else b) m0

/-- The phonetic fallback of `correct_name`: best phonetic match by edit
distance, accepted when its (pre-penalty) edit score meets the threshold,
returned with a 0.8 penalty. -/
def phoneticStep (sdx mp ny : Str → Str) (θ : ℚ) (name : Str) : Option (Str × ℚ) :=
  match getPhoneticMatches sdx mp ny name with
  | [] => none
  | m0 :: ms =>
    let best := maxByEditScore name m0 ms
    let score := editDistanceScore name best.1
    if θ ≤ score then some (best.2, score * (8/10)) else none

/-- Model of `NameCorrector.correct_name`.  The `self.name_map[best_match]`
dict access can in principle raise `KeyError`, modelled as `Except.error`. -/
def correctName (sdx mp ny : Str → Str) (θ : ℚ) (name : Str) :
    Except Str (Option Str × ℚ) :=
  if name = [] ∨ stripStr name = [] then .ok (none, 0)
  else
    let n := stripStr (lowerStr name)
    match dictGet? buildNameMap n with
    | some p => .ok (some p, 1)
    | none =>
      match partialScan θ n buildNameMap with
      | some (p, c) => .ok (some p, c)
      | none =>
        let best := editBest θ n allKnownNames
        if pyTruthyOpt best.1 then
          match best.1 with
          | some bm =>
            match dictGet? buildNameMap bm with
            | some p => .ok (some p, best.2)
            | none => .error ("KeyError".toList)
          | none => .ok (none, 0)
        else
          match phoneticStep sdx mp ny θ n with
          | some (p, c) => .ok (some p, c)
          | none => .ok (none, 0)

/-- Specification predicate for claim C5 (from the claim's words): some
resolution candidate reaches the threshold — an exact map hit, a
containment pair with length ratio at least the threshold, or a known name
with edit-distance similarity at least the threshold. -/
def candidateReachesThreshold (θ : ℚ) (n : Str) : Prop :=
  (dictGet? buildNameMap n).isSome = true ∨
  (∃ p ∈ buildNameMap, (isSubstr n p.1 || isSubstr p.1 n) = true ∧
      θ ≤ ((min n.length p.1.length : ℚ)) / ((max n.length p.1.length : ℚ))) ∨
  (∃ kn ∈ allKnownNames, θ ≤ editDistanceScore n kn)

/-- All `(variant, primary)` pairs inserted into the phonetic map, in
insertion order (independent of the hash functions). -/
def charEntries : List (Str × Str) :=
  gitaCharacters.flatMap (fun ci =>
    let primary := lowerStr ci.primary_name
    (primary :: ci.aliases.map lowerStr).map (fun nm => (nm, primary)))

/-- All entries stored in the buckets of a phonetic map. -/
def phonEntries (pm : List (Str × List (Str × Str))) : List (Str × Str) :=
  (pm.map Prod.snd).flatten

/-- The computed value of `buildNameMap` (used, after the one-time equation
`buildNameMap_eq`, to keep concrete evaluations shallow). -/
def nameMapList : List (Str × Str) := [("krishna".toList, "krsna".toList), ("krsna".toList, "krishna".toList), ("krushna".toList, "krsna".toList), ("krishn".toList, "krsna".toList), ("krishana".toList, "krsna".toList), ("krisna".toList, "krsna".toList), ("krshna".toList, "krsna".toList), ("govinda".toList, "krishna".toList), ("madhava".toList, "krishna".toList), ("hari".toList, "krishna".toList), ("vasudeva".toList, "krishna".toList), ("keshava".toList, "krishna".toList), ("mukunda".toList, "krishna".toList), ("arjuna".toList, "arjuna".toList), ("partha".toList, "arjuna".toList), ("dhananjaya".toList, "arjuna".toList), ("gudakesha".toList, "arjuna".toList), ("kaunteya".toList, "arjuna".toList), ("parantapa".toList, "arjuna".toList), ("bharata".toList, "yudhishthira".toList), ("yudhishthira".toList, "yudhishthira".toList), ("dharmaraja".toList, "yudhishthira".toList), ("ajatashatru".toList, "yudhishthira".toList), ("pandava".toList, "yudhishthira".toList), ("bhima".toList, "bhima".toList), ("vrikodara".toList, "bhima".toList), ("bhimasena".toList, "bhima".toList), ("jarasandha-jit".toList, "bhima".toList), ("nakula".toList, "nakula".toList), ("madri-nandana".toList, "nakula".toList), ("sahadeva".toList, "sahadeva".toList), ("madri-suta".toList, "sahadeva".toList), ("duryodhana".toList, "duryodhana".toList), ("suyodhana".toList, "duryodhana".toList), ("kaurava".toList, "duryodhana".toList), ("dushasana".toList, "dushasana".toList), ("dronacharya".toList, "dronacharya".toList), ("drona".toList, "dronacharya".toList), ("dronacarya".toList, "dronacharya".toList), ("kripacharya".toList, "kripacharya".toList), ("kripa".toList, "kripacharya".toList), ("bhishma".toList, "bhishma".toList), ("devavrata".toList, "bhishma".toList), ("gangeya".toList, "bhishma".toList), ("shantanu-nandana".toList, "bhishma".toList), ("dhritarashtra".toList, "dhritarashtra".toList), ("vidura".toList, "vidura".toList), ("kshatri".toList, "vidura".toList), ("sanjaya".toList, "sanjaya".toList), ("karna".toList, "karna".toList), ("radheya".toList, "karna".toList), ("vaikartana".toList, "karna".toList), ("sutaputra".toList, "karna".toList), ("drupada".toList, "drupada".toList), ("yajnasena".toList, "drupada".toList), ("draupadi".toList, "draupadi".toList), ("krishnaa".toList, "draupadi".toList), ("panchali".toList, "draupadi".toList), ("yajnaseni".toList, "draupadi".toList), ("shakuni".toList, "shakuni".toList), ("saubala".toList, "shakuni".toList), ("indra".toList, "indra".toList), ("sakra".toList, "indra".toList), ("devaraja".toList, "indra".toList), ("purandara".toList, "indra".toList), ("surya".toList, "surya".toList), ("vivasvan".toList, "surya".toList), ("aditya".toList, "surya".toList), ("yama".toList, "yama".toList), ("mrityu".toList, "yama".toList), ("vayu".toList, "vayu".toList), ("pavana".toList, "vayu".toList), ("matali".toList, "vayu".toList), ("vyasa".toList, "vyasa".toList), ("vedavyasa".toList, "vyasa".toList), ("krishna dvaipayana".toList, "vyasa".toList), ("parashurama".toList, "parashurama".toList), ("bhargava".toList, "parashurama".toList), ("jamadagnya".toList, "parashurama".toList), ("abhimanyu".toList, "abhimanyu".toList), ("arjuni".toList, "abhimanyu".toList), ("subhadra-nandana".toList, "abhimanyu".toList), ("gandhari".toList, "gandhari".toList), ("kunti".toList, "kunti".toList), ("pritha".toList, "kunti".toList), ("madri".toList, "madri".toList), ("arjun".toList, "arjuna".toList), ("arjoon".toList, "arjuna".toList), ("arjoona".toList, "arjuna".toList), ("arjunn".toList, "arjuna".toList), ("bheeshma".toList, "bhishma".toList), ("bheeshm".toList, "bhishma".toList), ("bhishm".toList, "bhishma".toList), ("bheesma".toList, "bhishma".toList), ("bheeshmaa".toList, "bhishma".toList), ("duryodhan".toList, "duryodhana".toList), ("duryodhna".toList, "duryodhana".toList), ("duryodhanna".toList, "duryodhana".toList), ("yudhisthira".toList, "yudhishthira".toList), ("yudhishtir".toList, "yudhishthira".toList), ("yudhisthir".toList, "yudhishthira".toList), ("dropadi".toList, "draupadi".toList), ("karn".toList, "karna".toList), ("karan".toList, "karna".toList), ("karana".toList, "karna".toList), ("dron".toList, "dronacharya".toList)]

/-- The computed value of `allKnownNames`. -/
def allKnownNamesList : List Str := ["krushna".toList, "krishn".toList, "krishana".toList, "krisna".toList, "krshna".toList, "govinda".toList, "madhava".toList, "hari".toList, "vasudeva".toList, "keshava".toList, "mukunda".toList, "partha".toList, "dhananjaya".toList, "gudakesha".toList, "kaunteya".toList, "parantapa".toList, "bharata".toList, "dharmaraja".toList, "ajatashatru".toList, "pandava".toList, "vrikodara".toList, "bhimasena".toList, "jarasandha-jit".toList, "madri-nandana".toList, "madri-suta".toList, "suyodhana".toList, "kaurava".toList, "drona".toList, "dronacarya".toList, "kripa".toList, "devavrata".toList, "gangeya".toList, "shantanu-nandana".toList, "kshatri".toList, "radheya".toList, "vaikartana".toList, "sutaputra".toList, "yajnasena".toList, "krishnaa".toList, "panchali".toList, "yajnaseni".toList, "saubala".toList, "sakra".toList, "devaraja".toList, "purandara".toList, "vivasvan".toList, "aditya".toList, "mrityu".toList, "pavana".toList, "matali".toList, "vedavyasa".toList, "krishna dvaipayana".toList, "bhargava".toList, "jamadagnya".toList, "arjuni".toList, "subhadra-nandana".toList, "pritha".toList, "arjun".toList, "arjoon".toList, "arjoona".toList, "arjunn".toList, "bheeshma".toList, "bheeshm".toList, "bhishm".toList, "bheesma".toList, "bheeshmaa".toList, "duryodhan".toList, "duryodhna".toList, "duryodhanna".toList, "yudhisthira".toList, "yudhishtir".toList, "yudhisthir".toList, "dropadi".toList, "karn".toList, "karan".toList, "karana".toList, "dron".toList, "krsna".toList, "krishna".toList, "bhima".toList, "nakula".toList, "sahadeva".toList, "dushasana".toList, "kripacharya".toList, "dhritarashtra".toList, "vidura".toList, "sanjaya".toList, "drupada".toList, "shakuni".toList, "indra".toList, "surya".toList, "yama".toList, "vayu".toList, "vyasa".toList, "parashurama".toList, "abhimanyu".toList, "gandhari".toList, "kunti".toList, "madri".toList, "arjuna".toList, "bhishma".toList, "duryodhana".toList, "yudhishthira".toList, "draupadi".toList, "karna".toList, "dronacharya".toList]

/-- A concrete choice of phonetic hash function for the claim C2 witness:
it sends the input "zq" and the name "krishna" to a shared hash. -/
def hashW : Str → Str := fun s => if s = "zq".toList then "krishna".toList else s

/- ----------------------------------------------------------------- -/
/- TextCorrector: TextProcessor (src/text_utils.py)                   -/
/- ----------------------------------------------------------------- -/

/-- The hand-seeded Gita terms added to the common-word set in
`_load_common_words` (the set literal's duplicates collapse). -/
def gitaTerms : List Str :=
  (["karma", "dharma", "bhakti", "yoga", "krishna", "arjuna", "bhagavad",
    "gita", "veda", "upanishad", "bhagavan", "atman", "brahman", "moksha",
    "samsara", "maya", "prakriti", "purusha", "guna", "jnana", "yogi",
    "sankhya", "yogin", "ishvara", "jiva", "mahatma"]).map String.toList

/-- The prefixes added to the common-word set in `_load_common_words`. -/
def loadPrefixList : List Str :=
  (["un", "re", "in", "im", "dis", "en", "pre", "pro", "sub", "trans"]).map String.toList

/-- The suffixes added to the common-word set in `_load_common_words`. -/
def loadSuffixList : List Str :=
  (["ing", "ed", "ly", "ment", "tion", "sion", "ness", "less", "ful", "able"]).map String.toList

/-- Model of `self.common_words`: the union of the NLTK `words` corpus
(external data, taken as the parameter `nltk`) with the Gita terms and the
prefix/suffix seeds.  Only membership and element iteration are used. -/
def commonWords (nltk : List Str) : List Str :=
  nltk ++ gitaTerms ++ loadPrefixList ++ loadSuffixList

/-- The short-function-word stoplist of `_is_likely_error` (line 52). -/
def shortStopList : List Str :=
  (["a", "i", "an", "at", "be", "by", "do", "go", "he", "hi", "in", "is",
    "it", "me", "my", "no", "of", "on", "or", "so", "to", "up", "us", "we"]).map String.toList

/-- The `common_terms` never-error allowlist of `_is_likely_error`. -/
def commonTermsList : List Str :=
  (["Krishna", "Arjuna", "Bhagavad", "Gita", "Veda", "Upanishad", "Bhagavan",
    "Atman", "Brahman", "Moksha", "Samsara", "Yoga", "Yogi", "Sankhya", "Yogin", "Jiva",
    "Mahatma", "Bhishma", "Duryodhana", "Dronacharya", "Karna", "Vidura",
    "Vyasa", "Dhritarashtra", "Gandhari", "Kunti", "Draupadi", "Subhadra",
    "Vasudeva", "Devaki", "Nanda", "Yashoda", "Balarama", "Parikshit",
    "Janaka", "Valmiki", "Vishnu", "Shiva", "Brahma", "Lakshmi", "Saraswati",
    "Parvati", "Durga", "Kali", "Hanuman", "Garuda", "Shesha", "Indra", "Agni",
    "Vayu", "Varuna", "Yama", "Kubera", "Vishvamitra", "Vasishtha", "Bharata",
    "Ramayana", "Mahabharata", "Pandava", "Kaurava", "Kuru", "Panchala",
    "Gandhara", "Kamboja", "Sindhu", "Sauvira", "Madra", "Kekaya", "Kosala", "Videha",
    "soul", "yoga", "karma", "dharma", "bhakti", "jnana", "maya", "prakriti",
    "purusha", "guna", "ishvara", "atma", "bhagavad", "gita", "veda", "upanishad",
    "bhagavan", "yogi", "sankhya", "yogin", "jiva", "mahatma", "bhishma",
    "duryodhana", "dronacharya", "karna", "vidura", "vyasa", "dhritarashtra",
    "gandhari", "kunti", "draupadi", "subhadra", "vasudeva", "devaki", "nanda",
    "yashoda", "balarama", "parikshit", "janaka", "valmiki", "vishnu", "shiva",
    "brahma", "lakshmi", "saraswati", "parvati", "durga", "kali", "hanuman",
    "garuda", "shesha", "indra", "agni", "vayu", "varuna", "yama", "kubera",
    "vishvamitra", "vasishtha", "bharata", "ramayana", "mahabharata", "pandava",
    "kaurava", "kuru", "panchala", "gandhara", "kamboja", "sindhu", "sauvira",
    "madra", "kekaya", "kosala", "videha"]).map String.toList

/-- The `sanskrit_terms` allowlist of `_is_likely_error` (duplicates in the
source set literal collapse; kept as written). -/
def sanskritTermsList : List Str :=
  (["atma", "brahman", "dharma", "karma", "moksha", "yoga", "bhakti",
    "jnana", "samsara", "maya", "prakriti", "purusha", "guna", "ishvara",
    "krishna", "arjuna", "bhagavad", "gita", "veda", "upanishad", "bhagavan",
    "atman", "brahman", "moksha", "samsara", "yogi", "sankhya", "yogin", "jiva",
    "mahatma", "bhishma", "duryodhana", "dronacharya", "karna", "vidura",
    "vyasa", "dhritarashtra", "gandhari", "kunti", "draupadi", "subhadra",
    "vasudeva", "devaki", "nanda", "yashoda", "balarama", "subhadra", "parikshit",
    "janaka", "valmiki", "vishnu", "shiva", "brahma", "lakshmi", "saraswati",
    "parvati", "durga", "kali", "hanuman", "garuda", "shesha", "indra", "agni",
    "vayu", "varuna", "yama", "kubera", "vishvamitra", "vasishtha", "vishvamitra",
    "bharata", "ramayana", "mahabharata", "pandava", "kaurava", "kuru", "panchala",
    "gandhara", "kamboja", "sindhu", "sauvira", "madra", "kekaya", "kosala", "videha"]).map String.toList

/-- The `common_ocr_errors` substring list of `_is_likely_error` (braces
written by code, smart punctuation kept verbatim; the duplicate "|" of the
source list is kept). -/
def commonOcrStrings : List Str :=
  (["rn", "vv", "cl", "ij", "in",
    "1", "0", "5", "8", "6", "9",
    "|", "\\", "/", "`", "~", "!", "@", "#", "$", "%", "^", "&", "*", "(", ")",
    "_", "+", "=", "\x7b", "\x7d", "[", "]", "|", ";", ":", "\"", "<", ">", "?", ",", ".",
    "“", "”", "‘", "’", "–", "—", "•", "·", "…"]).map String.toList

/-- Two adjacent characters matching `p` then `q` occur somewhere (the
semantics of `re.search` for two-character-class regexes). -/
def hasAdj (p q : Char → Bool) : Str → Bool
  | a :: b :: rest => (p a && q b) || hasAdj p q (b :: rest)
  | _ => false

/-- Three adjacent characters matching `p`, `q`, `r` occur somewhere. -/
def hasTriple (p q r : Char → Bool) : Str → Bool
  | a :: b :: c :: rest => (p a && q b && r c) || hasTriple p q r (b :: c :: rest)
  | _ => false

/-- Four adjacent characters matching the four tests occur somewhere. -/
def hasQuad (p q r s : Char → Bool) : Str → Bool
  | a :: b :: c :: d :: rest => (p a && q b && r c && s d) || hasQuad p q r s (b :: c :: d :: rest)
  | _ => false

/-- `[a-z]+[A-Z]` after an anchored `[A-Z]`: at least one lower-case run then
an upper-case letter (backtracking `re` semantics: some split works). -/
def lowersThenUpper : Str → Bool
  | a :: b :: rest => isLowerCh a && (isUpperCh b || lowersThenUpper (b :: rest))
  | _ => false

/-- `\w` of the source regex `(\w)\1{2,}` (ASCII word character). -/
def isWordCh (c : Char) : Bool := isAlnumCh c || c == '_'

/-- `r'(\w)\1{2,}'` (this one is written with single backslashes in the
source): three or more repeats of one word character. -/
def hasRepeatWordChar : Str → Bool
  | a :: b :: c :: rest => (isWordCh a && a == b && b == c) || hasRepeatWordChar (b :: c :: rest)
  | _ => false

/-- `[aeiouAEIOU]`. -/
def isVowelCh (c : Char) : Bool := c ∈ "aeiouAEIOU".toList

/-- The explicit consonant class of the source. -/
def isConsonantCh (c : Char) : Bool := c ∈ "bcdfghjklmnpqrstvwxyzBCDFGHJKLMNPQRSTVWXYZ".toList

/-- Four adjacent characters matching `p`. -/
def hasRun4 (p : Char → Bool) : Str → Bool
  | a :: b :: c :: d :: rest => (p a && p b && p c && p d) || hasRun4 p (b :: c :: d :: rest)
  | _ => false

/-- Five adjacent characters matching `p`. -/
def hasRun5 (p : Char → Bool) : Str → Bool
  | a :: b :: c :: d :: e :: rest => (p a && p b && p c && p d && p e) || hasRun5 p (b :: c :: d :: e :: rest)
  | _ => false

/-- The `patterns` battery of `_is_likely_error`, with the exact regex
semantics of the source.  Several source patterns are written with
double backslashes inside raw strings (e.g. `r'[a-z]\\d'`), so they match a
literal backslash followed by the letter "d" — they are translated as
such, not as their comments intend.  Likewise `r'[^a-zA-Z0-9\\s]'` matches
any character that is neither ASCII alphanumeric nor a backslash (this is
the pattern that fires on spaces and punctuation), while `r'\\s'` matches a
literal backslash followed by "s". -/
def matchesErrorPatterns (w : Str) : Bool :=
  hasAdj isLowerCh isUpperCh w ||                                  -- r'[a-z][A-Z]'
  hasTriple isLowerCh (fun c => c == 'i') isLowerCh w ||           -- r'[a-z]i[a-z]'
  hasTriple isLowerCh (fun c => c == 'l') isLowerCh w ||           -- r'[a-z]l[a-z]'
  hasTriple isLowerCh (fun c => c == 'o') isLowerCh w ||           -- r'[a-z]o[a-z]'
  hasTriple isLowerCh (fun c => c == 's') isLowerCh w ||           -- r'[a-z]s[a-z]'
  hasTriple isLowerCh (fun c => c == '\\') (fun c => c == 'd') w ||  -- r'[a-z]\\d'
  hasTriple (fun c => c == '\\') (fun c => c == 'd') isLowerCh w ||  -- r'\\d[a-z]'
  hasTriple (fun c => !(c == '\\' || c == 'w' || c == 's')) (fun c => c == '\\') (fun c => c == 'w') w ||  -- r'[^\\w\\s]\\w'
  hasTriple (fun c => c == '\\') (fun c => c == 'w') (fun c => !(c == '\\' || c == 'w' || c == 's')) w ||  -- r'\\w[^\\w\\s]'
  hasQuad isLowerCh isLowerCh isUpperCh isLowerCh w ||             -- r'[a-z]{2,}[A-Z][a-z]+'
  hasAdj isLowerCh isDigitCh w ||                                  -- r'[a-z]+[0-9]+'
  hasAdj isDigitCh isLowerCh w ||                                  -- r'[0-9]+[a-z]+'
  hasQuad isAlphaCh (fun c => c == '\\') (fun c => c == '1') (fun c => c == '1') w ||  -- r'([a-zA-Z])\\1{2,}'
  w.any (fun c => !(isAlnumCh c || c == '\\')) ||                  -- r'[^a-zA-Z0-9\\s]'
  (match w with
   | a :: rest => isUpperCh a && lowersThenUpper rest
   | [] => false) ||                                               -- r'^[A-Z][a-z]+[A-Z]'
  hasTriple isLowerCh isUpperCh isLowerCh w ||                     -- r'[a-z][A-Z][a-z]'
  hasAdj (fun c => c == '\\') (fun c => c == 's') w                -- r'\\s'

/-- Python `str.isupper`: at least one cased character and no lower-case
one (ASCII). -/
def pyIsUpper (s : Str) : Bool := s.any isAlphaCh && !(s.any isLowerCh)

/-- Python `str.isalpha` (ASCII). -/
def pyIsAlpha (s : Str) : Bool := !s.isEmpty && s.all isAlphaCh

/-- Helper for `pyIsTitle`: tracks whether the previous character was
cased. -/
def pyIsTitleAux : Bool → Str → Bool
  | _, [] => true
  | prevCased, c :: rest =>
    if isUpperCh c then !prevCased && pyIsTitleAux true rest
    else if isLowerCh c then prevCased && pyIsTitleAux true rest
    else pyIsTitleAux false rest

/-- Python `str.istitle` (ASCII): upper-case only at the start of cased
runs, at least one cased character. -/
def pyIsTitle (s : Str) : Bool := s.any isAlphaCh && pyIsTitleAux false s

/-- Helper for `pyTitle`: tracks whether the previous character was a
letter. -/
def pyTitleAux : Bool → Str → Str
  | _, [] => []
  | prevAlpha, c :: rest =>
    if isAlphaCh c then
      (if prevAlpha then lowerCh c else upperCh c) :: pyTitleAux true rest
    else c :: pyTitleAux false rest

/-- Python `str.title` (ASCII). -/
def pyTitle (s : Str) : Str := pyTitleAux false s

/-- Python `str.capitalize` (ASCII). -/
def pyCapitalize : Str → Str
  | [] => []
  | c :: rest => upperCh c :: lowerStr rest

/-- Python `str.replace` for a nonempty pattern: left-to-right,
non-overlapping, all occurrences (every pattern used by the source is
nonempty). -/
def replaceAll (s pat rep : Str) : Str :=
  if pat = [] then s
  else match s with
    | [] => []
    | a :: rest =>
      if pat.isPrefixOf (a :: rest) then rep ++ replaceAll ((a :: rest).drop pat.length) pat rep
      else a :: replaceAll rest pat rep
termination_by s.length
decreasing_by
  · simp only [List.length_drop, List.length_cons]
    have : 0 < pat.length := List.length_pos.mpr (by assumption)
    omega
  · simp [Nat.lt_succ_self]

/-- `re.sub(r'\s+', ' ', s)`: each whitespace run becomes one space. -/
def collapseWs : Str → Str
  | [] => []
  | c :: rest =>
    if isSpaceCh c then ' ' :: collapseWs (rest.dropWhile isSpaceCh)
    else c :: collapseWs rest
termination_by s => s.length
decreasing_by
  · have := (List.dropWhile_sublist (l := rest) isSpaceCh).length_le
    simp only [List.length_cons]
    omega
  · simp [Nat.lt_succ_self]

/-- `re.sub(r'([a-z])([A-Z])', r'\1 \2', s)`: insert a space at each
lower-to-upper boundary, resuming the scan after each match. -/
def camelSub : Str → Str
  | a :: b :: rest =>
    if isLowerCh a && isUpperCh b then a :: ' ' :: b :: camelSub rest
    else a :: camelSub (b :: rest)
  | s => s

/-- `re.sub(r'([.,;:!?])([A-Za-z])', r'\1 \2', s)`. -/
def punctLetterSub : Str → Str
  | a :: b :: rest =>
    if (a == '.' || a == ',' || a == ';' || a == ':' || a == '!' || a == '?') && isAlphaCh b
    then a :: ' ' :: b :: punctLetterSub rest
    else a :: punctLetterSub (b :: rest)
  | s => s

/-- The punctuation class of `re.sub(r'\s+([.,!?;:])', r'\1', s)`. -/
def isClosePunct (c : Char) : Bool :=
  c == '.' || c == ',' || c == '!' || c == '?' || c == ';' || c == ':'

/-- `re.sub(r'\s+([.,!?;:])', r'\1', s)`: drop a whitespace run immediately
before one of the listed punctuation marks. -/
def wsPunctSub : Str → Str
  | [] => []
  | c :: rest =>
    if isSpaceCh c then
      match hdw : rest.dropWhile isSpaceCh with
      | p :: tail =>
        if isClosePunct p then p :: wsPunctSub tail
        else (c :: rest.takeWhile isSpaceCh) ++ (p :: wsPunctSub tail)
      | [] => c :: rest
    else c :: wsPunctSub rest
termination_by s => s.length
decreasing_by
  · have h1 := (List.dropWhile_sublist (l := rest) isSpaceCh).length_le
    rw [hdw] at h1
    simp only [List.length_cons] at h1 ⊢
    omega
  · have h1 := (List.dropWhile_sublist (l := rest) isSpaceCh).length_le
    rw [hdw] at h1
    simp only [List.length_cons] at h1 ⊢
    omega
  · simp only [List.length_cons]; omega

/-- `re.sub(r'([(])\s+', r'\1', s)`: drop a whitespace run right after an
opening parenthesis. -/
def parenOpenSub : Str → Str
  | [] => []
  | [c] => [c]
  | c :: d :: tail =>
    if c == '(' then
      if isSpaceCh d then '(' :: parenOpenSub (tail.dropWhile isSpaceCh)
      else '(' :: parenOpenSub (d :: tail)
    else c :: parenOpenSub (d :: tail)
termination_by s => s.length
decreasing_by
  · have h1 := (List.dropWhile_sublist (l := tail) isSpaceCh).length_le
    simp only [List.length_cons]
    omega
  · simp only [List.length_cons]; omega
  · simp only [List.length_cons]; omega

/-- `re.sub(r'\s+([)])', r'\1', s)`. -/
def wsCloseParenSub : Str → Str
  | [] => []
  | c :: rest =>
    if isSpaceCh c then
      match hdw : rest.dropWhile isSpaceCh with
      | p :: tail =>
        if p == ')' then p :: wsCloseParenSub tail
        else (c :: rest.takeWhile isSpaceCh) ++ (p :: wsCloseParenSub tail)
      | [] => c :: rest
    else c :: wsCloseParenSub rest
termination_by s => s.length
decreasing_by
  · have h1 := (List.dropWhile_sublist (l := rest) isSpaceCh).length_le
    rw [hdw] at h1
    simp only [List.length_cons] at h1 ⊢
    omega
  · have h1 := (List.dropWhile_sublist (l := rest) isSpaceCh).length_le
    rw [hdw] at h1
    simp only [List.length_cons] at h1 ⊢
    omega
  · simp only [List.length_cons]; omega

/-- `re.split(r'(\s+)', line)`: alternating (possibly empty) non-space
chunks and captured whitespace runs, as Python produces them. -/
def splitKeepWsAux : Str → Str → List Str
  | [], acc => [acc.reverse]
  | c :: rest, acc =>
    if isSpaceCh c then
      acc.reverse :: (c :: rest.takeWhile isSpaceCh) ::
        splitKeepWsAux (rest.dropWhile isSpaceCh) []
    else splitKeepWsAux rest (c :: acc)
termination_by s _ => s.length
decreasing_by
  · have h1 := (List.dropWhile_sublist (l := rest) isSpaceCh).length_le
    simp only [List.length_cons]
    omega
  · simp only [List.length_cons]; omega

/-- `re.split(r'(\s+)', line)`. -/
def splitKeepWs (s : Str) : List Str := splitKeepWsAux s []

/-- `str.splitlines(keepends=True)` for LF, CRLF and CR endings (the only
kinds of line break exercised here; Python also splits on some rarer
control characters). -/
def splitlinesKeepAux : Str → Str → List Str
  | [], acc => if acc.isEmpty then [] else [acc.reverse]
  | '\r' :: '\n' :: rest, acc => (acc.reverse ++ ['\r', '\n']) :: splitlinesKeepAux rest []
  | '\n' :: rest, acc => (acc.reverse ++ ['\n']) :: splitlinesKeepAux rest []
  | '\r' :: rest, acc => (acc.reverse ++ ['\r']) :: splitlinesKeepAux rest []
  | c :: rest, acc => splitlinesKeepAux rest (c :: acc)

/-- `str.splitlines(keepends=True)`. -/
def splitlinesKeep (s : Str) : List Str := splitlinesKeepAux s []

/-- `s.rstrip('\n')`. -/
def rstripNl (s : Str) : Str := (s.reverse.dropWhile (fun c => c == '\n')).reverse

/-- `s.endswith('\n')`. -/
def endsWithNl (s : Str) : Bool :=
  match s.reverse with
  | c :: _ => c == '\n'
  | [] => false

/-- The `ocr_error_map` of `_generate_correction`, in dict insertion order
(duplicate literal keys collapse to their first position; every duplicate in
the source carries the same value).  Apostrophe and brace characters are
written by code. -/
def ocrErrorMap : List (Str × Str) :=
  [("rn".toList, "m".toList), ("vv".toList, "w".toList), ("cl".toList, "d".toList),
   ("ij".toList, "n".toList),
   ("1".toList, "l".toList), ("0".toList, "o".toList), ("5".toList, "s".toList),
   ("8".toList, "b".toList), ("6".toList, "b".toList), ("9".toList, "g".toList),
   ("|".toList, "l".toList), ("\\".toList, "l".toList), ("/".toList, "l".toList),
   ("`".toList, [Char.ofNat 39]), ("~".toList, "~".toList),
   ("!".toList, "i".toList), ("@".toList, "a".toList), ("#".toList, []),
   ("$".toList, "s".toList), ("%".toList, []), ("^".toList, []),
   ("&".toList, "and".toList), ("*".toList, []), ("(".toList, []), (")".toList, []),
   ("_".toList, " ".toList), ("+".toList, "t".toList),
   ("=".toList, " ".toList), ("\x7b".toList, "(".toList), ("\x7d".toList, ")".toList),
   ("[".toList, "(".toList), ("]".toList, ")".toList),
   (";".toList, ":".toList), (":".toList, ":".toList),
   ("\"".toList, [Char.ofNat 39]), ("<".toList, ",".toList), (">".toList, ".".toList),
   ("?".toList, []), (",".toList, ",".toList), (".".toList, ".".toList),
   ("“".toList, "\"".toList), ("”".toList, "\"".toList),
   ("‘".toList, [Char.ofNat 39]), ("’".toList, [Char.ofNat 39]),
   ("–".toList, "-".toList), ("—".toList, "-".toList), ("•".toList, "-".toList),
   ("·".toList, ".".toList), ("…".toList, "...".toList)]

/-- The `common_concatenations` dictionary of `_generate_correction`, in
insertion order. -/
def commonConcatList : List (Str × Str) :=
  [("th is".toList, "this".toList),
   ("theBhagavad".toList, "the Bhagavad".toList),
   ("theGita".toList, "the Gita".toList),
   ("theLord".toList, "the Lord".toList),
   ("theSupreme".toList, "the Supreme".toList),
   ("acti ons".toList, "actions".toList),
   ("changeth is".toList, "change this".toList),
   ("perfecti on".toList, "perfection".toList),
   ("reacti ons".toList, "reactions".toList),
   ("preparati on".toList, "preparation".toList),
   ("servi ng".toList, "serving".toList),
   ("offeri ng".toList, "offering".toList),
   ("donot".toList, "do not".toList),
   ("tounderstand".toList, "to understand".toList),
   ("soulis".toList, "soul is".toList),
   ("karmais".toList, "karma is".toList),
   ("yogais".toList, "yoga is".toList),
   ("bhaktii".toList, "bhakti".toList),
   ("krishnasaid".toList, "Krishna said".toList),
   ("arjunasaid".toList, "Arjuna said".toList),
   ("lordkrishna".toList, "Lord Krishna".toList),
   ("bhagavadgita".toList, "Bhagavad Gita".toList),
   ("bhagavad-gita".toList, "Bhagavad-gita".toList),
   ("bhagavadgitaasitis".toList, "Bhagavad Gita As It Is".toList),
   ("theSupremePersonalityofGodhead".toList, "the Supreme Personality of Godhead".toList),
   ("theSupremePersonalityofGod".toList, "the Supreme Personality of God".toList),
   ("theSupremePersonality".toList, "the Supreme Personality".toList),
   ("theSupremeLord".toList, "the Supreme Lord".toList),
   ("theBhagavadGita".toList, "the Bhagavad Gita".toList),
   ("theBhagavad-Gita".toList, "the Bhagavad-gita".toList),
   ("theBhagavadGitaAsItIs".toList, "the Bhagavad Gita As It Is".toList),
   ("theBhagavad-GitaAsItIs".toList, "the Bhagavad-gita As It Is".toList)]

/-- Lookup in a Str-to-Str association list without overwriting semantics
(`common_concatenations` is only read). -/
def assocFindStr (m : List (Str × Str)) (k : Str) : Option Str :=
  match m with
  | [] => none
  | (k', v) :: rest => if k' = k then some v else assocFindStr rest k

/-- The substring pass over `common_concatenations`: the first entry whose
key (longer than 5 characters) occurs inside the word. -/
def concatSubstFind (word : Str) : List (Str × Str) → Option (Str × Str)
  | [] => none
  | (k, v) :: rest =>
    if isSubstr k word ∧ 5 < k.length then some (k, v)
    else concatSubstFind word rest

/-- The OCR-substitution loop of `_generate_correction`: each mapped error
substring is replaced only when the result looks like (part of) a known
word. -/
def ocrFold (S : List Str) (word : Str) : Str :=
  ocrErrorMap.foldl (fun w kv =>
    if isSubstr kv.1 w then
      let test := replaceAll w kv.1 kv.2
      if lowerStr test ∈ commonWords S ∨
          (commonWords S).any (fun cw => isSubstr (lowerStr test) cw) then test
      else w
    else w) word

/-- The function-word list of the camel-case split check. -/
def camelSmallWordsList : List Str :=
  (["the", "and", "but", "or", "for", "nor", "so", "yet",
    "a", "an", "in", "on", "at", "by", "to", "of", "with",
    "as", "is", "are", "was", "were", "be", "been", "being",
    "have", "has", "had", "do", "does", "did", "will",
    "would", "shall", "should", "may", "might", "must", "can", "could"]).map String.toList

/-- `word.split(' ', 1)`. -/
def splitOnceAux : Str → Str → List Str
  | [], acc => [acc.reverse]
  | c :: rest, acc => if c == ' ' then [acc.reverse, rest] else splitOnceAux rest (c :: acc)

/-- `word.split(' ', 1)`. -/
def splitOnce (s : Str) : List Str := splitOnceAux s []

/-- `' '.join(parts)`. -/
def joinSpace (parts : List Str) : Str := List.intercalate (" ".toList) parts

/-- The prefix set of the long-word split search in `_generate_correction`
(the Python set's iteration order does not matter: all matches return the
same split). -/
def genPrefixList : List Str :=
  (["un", "re", "in", "im", "dis", "en", "pre", "pro", "sub", "trans", "non",
    "mis", "over", "under", "out", "up", "down", "off", "on", "fore", "with"]).map String.toList

/-- The suffix set of the long-word split search. -/
def genSuffixList : List Str :=
  (["ing", "ed", "ly", "ment", "tion", "sion", "ness", "less", "ful", "able",
    "ible", "ant", "ent", "ism", "ist", "ity", "ty", "ive", "ize", "ise",
    "ify", "fy", "en", "er", "or", "al"]).map String.toList

/-- Validity of the left half in the long-word split
(`left_lower in common_words or any(w.startswith(left_lower)) or
any(left_lower in w)`). -/
def longLeftValid (S : List Str) (left : Str) : Prop :=
  lowerStr left ∈ commonWords S ∨
  (commonWords S).any (fun w => (lowerStr left).isPrefixOf w) = true ∨
  (commonWords S).any (fun w => isSubstr (lowerStr left) w) = true

instance (S : List Str) (left : Str) : Decidable (longLeftValid S left) := by
  unfold longLeftValid; infer_instance

/-- Validity of the right half in the long-word split. -/
def longRightValid (S : List Str) (right : Str) : Prop :=
  lowerStr right ∈ commonWords S ∨
  (commonWords S).any (fun w => (lowerStr right).isSuffixOf w) = true ∨
  (commonWords S).any (fun w => isSubstr (lowerStr right) w) = true

instance (S : List Str) (right : Str) : Decidable (longRightValid S right) := by
  unfold longRightValid; infer_instance

/-- One candidate split point of the long-word search is accepted when the
halves are dictionary-valid, or a known prefix starts the right half, or a
known suffix ends the left half (every accepting test returns the same
split, so the set-iteration order of the source is immaterial). -/
def longSplitCond (S : List Str) (left right : Str) : Prop :=
  (longLeftValid S left ∧ longRightValid S right) ∨
  (genPrefixList.any (fun p => p.isPrefixOf (lowerStr right)) = true ∧ 2 < left.length) ∨
  (genSuffixList.any (fun sf => sf.isSuffixOf (lowerStr left)) = true ∧ 2 < right.length)

instance (S : List Str) (left right : Str) : Decidable (longSplitCond S left right) := by
  unfold longSplitCond; infer_instance

/-- The `for i in range(3, min(len(word)-2, 10))` split search. -/
def longSplitScan (S : List Str) (word : Str) (i : Nat) : Option Str :=
  if h : i < min (word.length - 2) 10 then
    let left := word.take i
    let right := word.drop i
    if longSplitCond S left right then some (left ++ [' '] ++ right)
    else longSplitScan S word (i + 1)
  else none
termination_by min (word.length - 2) 10 - i
decreasing_by omega

/-- The final fall-through of `_generate_correction`: case normalisation
when nothing else applied. -/
def genFinal (S : List Str) (original word : Str) : Str :=
  if word ≠ original then word
  else if lowerStr word ∈ commonWords S then lowerStr word
  else if pyIsUpper word = true ∧ 1 < word.length then pyTitle word
  else if pyIsTitle word = true ∧ lowerStr word ∈ commonWords S then lowerStr word
  else original

/-- The long-word split section of `_generate_correction`. -/
def genLongSplit (S : List Str) (original word : Str) : Str :=
  if 10 < word.length ∧ pyIsAlpha word = true ∧
      ((word.drop 1).any isUpperCh) = false ∧ ¬(' ' ∈ word) then
    match longSplitScan S word 3 with
    | some res => res
    | none => genFinal S original word
  else genFinal S original word

/-- Validity test of the middle-space recombination section
(`x in common_words or any(x in w for w in common_words)`). -/
def spaceValid (S : List Str) (x : Str) : Prop :=
  lowerStr x ∈ commonWords S ∨
  (commonWords S).any (fun w => isSubstr (lowerStr x) w) = true

instance (S : List Str) (x : Str) : Decidable (spaceValid S x) := by
  unfold spaceValid; infer_instance

/-- The `for i in range(1, len(parts))` recombination search (each
accepting test returns the same joined string). -/
def spaceSplitScan (S : List Str) (parts : List Str) (i : Nat) : Option Str :=
  if h : i < parts.length then
    let left := joinSpace (parts.take i)
    let right := joinSpace (parts.drop i)
    if (spaceValid S left ∧ spaceValid S right) ∨
        (spaceValid S left ∧ 2 < right.length) ∨
        (spaceValid S right ∧ 2 < left.length) then
      some (left ++ [' '] ++ right)
    else spaceSplitScan S parts (i + 1)
  else none
termination_by parts.length - i
decreasing_by omega

/-- The extra-spaces section of `_generate_correction`. -/
def genSpaceSplit (S : List Str) (original word : Str) : Str :=
  if ' ' ∈ word then
    let parts := splitWs word
    let combined := parts.flatten
    if spaceValid S combined then combined
    else
      match spaceSplitScan S parts 1 with
      | some r => r
      | none => genLongSplit S original word
  else genLongSplit S original word

/-- The punctuation-spacing step (an unconditional `re.sub`), followed by
the rest of `_generate_correction`. -/
def genAfterI (S : List Str) (original word : Str) : Str :=
  genSpaceSplit S original (punctLetterSub word)

/-- The stray-space-around-"i" section of `_generate_correction`. -/
def genIStep (S : List Str) (original word : Str) : Str :=
  if isSubstr ("i ".toList) word ∨ isSubstr (" i".toList) word then
    let test := replaceAll (replaceAll word ("i ".toList) ("i".toList)) (" i".toList) ("i".toList)
    if lowerStr test ∈ commonWords S ∨ ((word.length : Int) - 1 < (test.length : Int)) then test
    else genAfterI S original word
  else genAfterI S original word

/-- The camel-case section of `_generate_correction`: the word is re-spaced
whenever a case transition exists, and returned at once when the first
segment is a recognised word. -/
def genCamel (S : List Str) (original word : Str) : Str :=
  if hasAdj isLowerCh isUpperCh word then
    let word2 := camelSub word
    let parts := splitOnce word2
    if 1 < parts.length ∧
        (lowerStr (parts.headD []) ∈ commonWords S ∨
          lowerStr (parts.headD []) ∈ camelSmallWordsList) then word2
    else genIStep S original word2
  else genIStep S original word

/-- Model of `TextProcessor._generate_correction`. -/
def generateCorrection (S : List Str) (cmap : List (Str × Str)) (word0 : Str) : Str :=
  if word0.length < 2 then word0
  else
    let word := stripStr word0
    match dictGet? cmap word with
    | some v => v
    | none =>
      match assocFindStr commonConcatList word with
      | some v => v
      | none =>
        match concatSubstFind word commonConcatList with
        | some kv => replaceAll word kv.1 kv.2
        | none =>
          let word := if ¬(lowerStr word ∈ commonWords S) ∧ pyIsAlpha word = false
            then ocrFold S word else word
          genCamel S word0 word

/-- Model of `TextProcessor._is_likely_error`. -/
def isLikelyError (S : List Str) (cmap : List (Str × Str)) (word : Str) : Bool :=
  if word.length < 2 then false
  else if word.length ≤ 2 ∧ lowerStr word ∈ shortStopList then false
  else if word ∈ commonTermsList ∨ lowerStr word ∈ commonTermsList then false
  else if (dictGet? cmap word).isSome then true
  else if matchesErrorPatterns word then true
  else if pyIsUpper word = true ∧ 1 < word.length then false
  else if lowerStr word ∈ commonWords S ∨ pyCapitalize (lowerStr word) ∈ commonWords S then false
  else if commonOcrStrings.any (fun e => isSubstr e word) then true
  else if lowerStr word ∈ sanskritTermsList ∨ pyCapitalize (lowerStr word) ∈ sanskritTermsList then false
  else if 15 < word.length ∧ ((word.drop 1).any isUpperCh) = false ∧ pyIsAlpha word = true then true
  else if hasRepeatWordChar word then true
  else if hasRun4 isVowelCh word then true
  else if hasRun5 isConsonantCh word then true
  else false

/-- Per-word processing of `_process_single_line`: whitespace pieces pass
through; known map keys are replaced; flagged words are corrected. -/
def processWord (S : List Str) (cmap : List (Str × Str)) (word : Str) : Str :=
  if stripStr word = [] then word
  else
    match dictGet? cmap word with
    | some v => v
    | none =>
      if isLikelyError S cmap word then generateCorrection S cmap word
      else word

/-- Model of `TextProcessor._process_single_line`: per-word substitution,
then a longest-key-first multi-word substitution pass, then whitespace and
punctuation normalisation. -/
def processSingleLine (S : List Str) (cmap : List (Str × Str)) (line : Str) : Str :=
  let words := splitKeepWs line
  let joined := (words.map (processWord S cmap)).flatten
  let sortedMap := List.insertionSort
    (fun a b : Str × Str => b.1.length ≤ a.1.length) cmap
  let multi := sortedMap.foldl (fun r kv =>
    if ' ' ∈ kv.1 ∧ isSubstr kv.1 r then replaceAll r kv.1 kv.2 else r) joined
  let normed := stripStr (collapseWs multi)
  wsCloseParenSub (parenOpenSub (wsPunctSub normed))

/-- The per-line loop of `correct_text` (the index is needed for the
empty-line rule). -/
def correctTextLines (S : List Str) (cmap : List (Str × Str)) (total : Nat) :
    List Str → Nat → List Str
  | [], _ => []
  | line :: rest, i =>
    (if stripStr line = [] then
      (if endsWithNl line = false ∧ i < total - 1 then ['\n'] else line)
    else
      let lc := rstripNl line
      if lc ≠ [] then
        (if endsWithNl line then processSingleLine S cmap lc ++ ['\n']
         else processSingleLine S cmap lc)
      else line) :: correctTextLines S cmap total rest (i + 1)

/-- Model of `TextProcessor.correct_text`.  The whole-text correction-map
hit returns immediately (before the safety check); otherwise the text is
processed line by line (or as a single line), and the result is discarded
in favour of the original when the input is longer than 10 characters and
the result is shorter than 0.8 of it.  The float comparison
`len(result) < len(text) * 0.8` is modelled exactly as
`5 * len(result) < 4 * len(text)`. -/
def correctText (S : List Str) (cmap : List (Str × Str)) (text : Str) : Str :=
  if text = [] then text
  else
    match dictGet? cmap (stripStr text) with
    | some v => v
    | none =>
      let result :=
        if '\n' ∈ text then
          (correctTextLines S cmap (splitlinesKeep text).length
            (splitlinesKeep text) 0).flatten
        else processSingleLine S cmap text
      if 10 < text.length ∧ 5 * result.length < 4 * text.length then text
      else result

/-- The `common_errors` table appended by `build_correction_map` (its
duplicate key collapses to the first position). -/
def commonErrorsList : List (Str × Str) :=
  [("th is".toList, "this".toList),
   ("changeth is".toList, "change this".toList),
   ("perfecti on".toList, "perfection".toList),
   ("acti ons".toList, "actions".toList),
   ("reacti ons".toList, "reactions".toList),
   ("preparati on".toList, "preparation".toList),
   ("servi ng".toList, "serving".toList),
   ("offeri ng".toList, "offering".toList),
   ("theBhagavad".toList, "the Bhagavad".toList),
   ("donot".toList, "do not".toList),
   ("tounderstand".toList, "to understand".toList),
   ("theGita".toList, "the Gita".toList),
   ("theLord".toList, "the Lord".toList),
   ("theSupreme".toList, "the Supreme".toList),
   ("theSupremePersonality".toList, "the Supreme Personality".toList),
   ("theSupremeLord".toList, "the Supreme Lord".toList),
   ("theSupremePersonalityofGodhead".toList, "the Supreme Personality of Godhead".toList),
   ("theSupremePersonalityofGodhead,".toList, "the Supreme Personality of Godhead,".toList),
   ("theSupremePersonalityofGodhead.".toList, "the Supreme Personality of Godhead.".toList)]

/-- Model of `TextProcessor.build_correction_map`.  The PDF is external
data, so the corpus is the parameter `tokens`: the distinct lower-cased
words of the corpus in `most_common()` order (the result of
`re.findall(r"\b[\w'-]+\b", page_text.lower())` over all pages, counted).
During the build `self.correction_map` is still empty, so the classifier
and the corrector run with the empty map; the `common_errors` table is
written last, overwriting any colliding corpus entry. -/
def buildCorrectionMap (S : List Str) (tokens : List Str) : List (Str × Str) :=
  let pdfMap := tokens.foldl (fun m w =>
    if isLikelyError S [] w then
      let c := generateCorrection S [] w
      if c ≠ w then dictSet m w c else m
    else m) []
  commonErrorsList.foldl (fun m kv => dictSet m kv.1 kv.2) pdfMap

/-- Every character is a lower-case ASCII letter (the token class of the
identity-fallback analysis). -/
def allLowerAlpha (s : Str) : Bool := s.all (fun c => 97 ≤ c.toNat && c.toNat ≤ 122)

/-- The four `[a-z]X[a-z]` OCR-confusion patterns of `_is_likely_error`
(`X` one of `i`, `l`, `o`, `s`): the part of the error-pattern battery
that is monotone under taking superstrings. -/
def tripleFlag (s : Str) : Bool :=
  hasTriple isLowerCh (fun c => c == 'i') isLowerCh s ||
  hasTriple isLowerCh (fun c => c == 'l') isLowerCh s ||
  hasTriple isLowerCh (fun c => c == 'o') isLowerCh s ||
  hasTriple isLowerCh (fun c => c == 's') isLowerCh s

/- ----------------------------------------------------------------- -/
/- VerseIndexer: QASystem.load_and_process_pdf (src/app.py)           -/
/- ----------------------------------------------------------------- -/

/-- Decimal digit character (`str` of one digit). -/
def digitChar (n : Nat) : Char := Char.ofNat (48 + n)

/-- Numeric value of a digit character. -/
def digitVal (c : Char) : Nat := c.toNat - 48

/-- Decimal digits of a natural number, fuel-driven so that the kernel can
evaluate it (the fuel `n + 1` always suffices: the digit count of `n` is
at most `n + 1`). -/
def natDigitsAux : Nat → Nat → Str
  | 0, _ => []
  | fuel + 1, n =>
    if n < 10 then [digitChar n]
    else natDigitsAux fuel (n / 10) ++ [digitChar (n % 10)]

/-- Python `str(n)` for a natural number. -/
def natDigits (n : Nat) : Str := natDigitsAux (n + 1) n

/-- Python `str(i)` for an `int`. -/
def intRepr (i : Int) : Str :=
  if i < 0 then '-' :: natDigits (-i).toNat else natDigits i.toNat

/-- The verse-index key `f"{chapter}.{verse}"`. -/
def verseKey (c v : Int) : Str := intRepr c ++ '.' :: intRepr v

/-- Numeric value of a digit string (the value `int()` gives a string of
ASCII digits, e.g. a regex `\d+` group). -/
def parseDigits (s : Str) : Nat := s.foldl (fun a c => 10 * a + digitVal c) 0

/-- Digit run with optional single underscores between digits, accumulator
form: the tail of Python `int()` grammar after the first digit. -/
def parseUDigitsAux (acc : Nat) : Str → Option Nat
  | [] => some acc
  | c :: rest =>
    if isDigitCh c then parseUDigitsAux (10 * acc + digitVal c) rest
    else if c == '_' then
      match rest with
      | [] => none
      | d :: rest2 =>
        if isDigitCh d then parseUDigitsAux (10 * acc + digitVal d) rest2 else none
    else none

/-- Unsigned part of Python `int()`: one or more digits, with single
underscores allowed between digits. -/
def parseUDigits (s : Str) : Option Nat :=
  match s with
  | [] => none
  | c :: rest => if isDigitCh c then parseUDigitsAux (digitVal c) rest else none

/-- Model of Python `int(s)` (ASCII): surrounding whitespace stripped,
optional sign, then digits; `none` models the `ValueError`. -/
def pyInt? (s : Str) : Option Int :=
  match stripStr s with
  | '-' :: rest => (parseUDigits rest).map (fun n => -(n : Int))
  | '+' :: rest => (parseUDigits rest).map (fun n => (n : Int))
  | t => (parseUDigits t).map (fun n => (n : Int))

/-- An anchored match of `(?:Bg\s*)?(\d+)\.(\d+)(?:\s|$)` WITHOUT the
optional `Bg` prefix, returning the two digit groups.  The greedy `\d+`
runs are maximal; no backtracking can rescue a failure (a shorter digit
run leaves a digit where `\.` or `\s|$` is required), so the maximal-run
scan is exact. -/
def tryCore (t : Str) : Option (Str × Str) :=
  let d1 := t.takeWhile isDigitCh
  if d1 = [] then none
  else
    match t.drop d1.length with
    | '.' :: rest2 =>
      let d2 := rest2.takeWhile isDigitCh
      if d2 = [] then none
      else
        match rest2.drop d2.length with
        | [] => some (d1, d2)
        | c :: _ => if isSpaceCh c then some (d1, d2) else none
    | _ => none

/-- An anchored match of the full verse pattern at one position: the
optional greedy `Bg\s*` prefix is tried first (after `Bg`, the maximal
whitespace run is the only viable choice), then the bare pattern. -/
def matchAt (t : Str) : Option (Str × Str) :=
  if ("Bg".toList).isPrefixOf t then
    match tryCore ((t.drop 2).dropWhile isSpaceCh) with
    | some r => some r
    | none => tryCore t
  else tryCore t

/-- `verse_pattern.search(line)`: leftmost match of
`(?:Bg\s*)?(\d+)\.(\d+)(?:\s|$)` (lines contain no newline, so `$` is
end-of-string). -/
def searchVerse : Str → Option (Str × Str)
  | [] => none
  | c :: rest =>
    match matchAt (c :: rest) with
    | some r => some r
    | none => searchVerse rest

/-- Python `part.split("Bg")`: non-overlapping left-to-right split. -/
def splitBg : Str → List Str
  | [] => [[]]
  | c :: rest =>
    if ("Bg".toList).isPrefixOf (c :: rest) then
      [] :: splitBg (rest.drop 1)
    else
      match splitBg rest with
      | piece :: more => (c :: piece) :: more
      | [] => [[c]]
termination_by s => s.length
decreasing_by
  · have := rest.length_drop 1
    simp only [List.length_cons]
    omega
  · simp only [List.length_cons]
    omega

/-- The verse-extraction state of `load_and_process_pdf`:
`current_chapter`, `current_verse`, `verse_text`, and the verse index
(the stored value keeps the joined text and the 1-based page number; the
constant `source` path is omitted). -/
structure VSt where
  chapter : Option Int
  verse : Option Int
  vtext : List Str
  index : List (Str × (Str × Nat))

/-- Python dict assignment for the verse index (same overwrite-in-place
semantics as `dictSet`). -/
def dictSetV (m : List (Str × (Str × Nat))) (k : Str) (v : Str × Nat) :
    List (Str × (Str × Nat)) :=
  if m.any (fun p => decide (p.1 = k)) then
    m.map (fun p => if p.1 = k then (k, v) else p)
  else m ++ [(k, v)]

/-- Lookup in the verse index. -/
def dictGetV? (m : List (Str × (Str × Nat))) (k : Str) : Option (Str × Nat) :=
  match m with
  | [] => none
  | (k2, v) :: rest => if k2 = k then some v else dictGetV? rest k

/-- The save-current-verse block (used before a new standard match, at
page end, and at stream end): when both chapter and verse are set and
verse text was collected, write
`verse_index[f"{chapter}.{verse}"] = {"text": " ".join(verse_text).strip(), "page": page_num+1}`
and clear the text buffer. -/
def saveCurrent (pageNum : Nat) (st : VSt) : VSt :=
  match st.chapter, st.verse with
  | some c, some v =>
    if st.vtext ≠ [] then
      { st with
        index := dictSetV st.index (verseKey c v)
          (stripStr (joinSpace st.vtext), pageNum + 1),
        vtext := [] }
    else st
  | _, _ => st

/-- The `for part in parts` loop of the `TEXT`/`Bg` special branch: for
each part containing `Bg` and `.`, take the last `Bg`-split piece, split
it on `.` (exactly two pieces, else the tuple unpacking raises and the
loop continues), and parse the two ints.  `current_chapter` is assigned
before `current_verse` is parsed, so a failing verse parse still leaves
the chapter updated.  Returns the (possibly partially) updated pair and
whether the `break` was reached. -/
def textPartsLoop : Option Int × Option Int → List Str → (Option Int × Option Int) × Bool
  | st, [] => (st, false)
  | st, part :: ps =>
    if isSubstr ("Bg".toList) part = true ∧ isSubstr (".".toList) part = true then
      match List.splitOn '.' ((splitBg part).getLastD []) with
      | [a, b] =>
        match pyInt? a with
        | none => textPartsLoop st ps
        | some ci =>
          match pyInt? b with
          | none => textPartsLoop (some ci, st.2) ps
          | some vi => ((some ci, some vi), true)
      | _ => textPartsLoop st ps
    else textPartsLoop st ps

/-- The `while i < len(lines)` loop of `load_and_process_pdf`: the
`TEXT`/`Bg` special branch, the standard verse-pattern branch (saving any
collected verse first and grabbing the following line as verse text), and
the text-accumulation branch. -/
def verseLineLoop (pageNum : Nat) : List Str → VSt → VSt
  | [], st => st
  | line :: rest, st =>
    if isSubstr ("TEXT ".toList) line = true ∧ isSubstr ("Bg".toList) line = true then
      match textPartsLoop (st.chapter, st.verse) (splitWs line) with
      | ((c2, v2), true) =>
        match rest with
        | [] => { st with chapter := c2, verse := v2 }
        | nxt :: rest2 =>
          verseLineLoop pageNum rest2
            { st with chapter := c2, verse := v2, vtext := [stripStr nxt] }
      | ((c2, v2), false) =>
        verseLineLoop pageNum rest { st with chapter := c2, verse := v2 }
    else
      match searchVerse line with
      | some (d1, d2) =>
        let st1 := saveCurrent pageNum st
        let st2 := { st1 with chapter := some ((parseDigits d1 : Nat) : Int),
                              verse := some ((parseDigits d2 : Nat) : Int) }
        match rest with
        | [] => st2
        | nxt :: rest2 => verseLineLoop pageNum rest2 { st2 with vtext := [stripStr nxt] }
      | none =>
        match st.chapter, st.verse with
        | some _, some _ =>
          if line ≠ [] ∧ ¬(("TEXT".toList).isPrefixOf line = true) ∧
              ¬(("Bg".toList).isPrefixOf line = true) then
            verseLineLoop pageNum rest { st with vtext := st.vtext ++ [line] }
          else verseLineLoop pageNum rest st
        | _, _ => verseLineLoop pageNum rest st

/-- The page loop of `load_and_process_pdf` over the pages from
`start_page = 10` on: empty page text is skipped; lines are split on
newlines, stripped and filtered nonempty; after each page any collected
verse is saved.  (The parallel `self.documents` accumulation feeds the
document matcher, not the verse index, and is not part of this model.) -/
def processPages : List Str → Nat → VSt → VSt
  | [], _, st => st
  | text :: rest, pageNum, st =>
    if text = [] then processPages rest (pageNum + 1) st
    else
      let lines := ((List.splitOn '\n' text).map stripStr).filter (fun l => l ≠ [])
      processPages rest (pageNum + 1) (saveCurrent pageNum (verseLineLoop pageNum lines st))

/-- Model of the verse-index construction of
`QASystem.load_and_process_pdf`: the input is the list of per-page
extracted texts; pages before index 10 are skipped; a final save catches
a verse still being collected at stream end. -/
def buildVerseIndex (pages : List Str) : List (Str × (Str × Nat)) :=
  (saveCurrent (pages.length - 1)
    (processPages (pages.drop 10) 10 ⟨none, none, [], []⟩)).index

/- ================================================================= -/
/- Theorems                                                           -/
/- ================================================================= -/

/-- The ranked list is sorted descending by score. -/
theorem rankedDocs_sorted (q : Str) (docs : List Document) :
    (rankedDocs q docs).Sorted scoreGe :=
  List.sorted_insertionSort scoreGe _

/-- The ranked list is a permutation of the scored list. -/
theorem rankedDocs_perm (q : Str) (docs : List Document) :
    (rankedDocs q docs).Perm (scoredDocs q docs) :=
  List.perm_insertionSort scoreGe _

/-- Claim C1: for every non-empty document list, query and `k`, if no scored
document scores above 0.3 then `get_relevant_documents` returns the slice
`documents[len//2 : len//2 + k]`, and if some scored document exceeds 0.3 it
returns the top-k scored documents in descending score order. -/
theorem claim_C1_rank_policy (query : Str) (docs : List Document) (k : Nat)
    (hne : docs ≠ []) :
    ((∀ p ∈ scoredDocs query docs, p.1 ≤ 3/10) →
      getRelevantDocuments query docs k =
        .ok ((docs.drop (docs.length / 2)).take k)) ∧
    ((∃ p ∈ scoredDocs query docs, (3:ℚ)/10 < p.1) →
      getRelevantDocuments query docs k =
        .ok (((rankedDocs query docs).take k).map Prod.snd) ∧
      ((rankedDocs query docs).take k).Sorted scoreGe) := by
  have hperm := rankedDocs_perm query docs
  have hsort := rankedDocs_sorted query docs
  unfold getRelevantDocuments
  rw [if_neg hne]
  constructor
  · intro hle
    cases h : rankedDocs query docs with
    | nil => simp
    | cons top rest =>
      have htop : top ∈ scoredDocs query docs :=
        hperm.mem_iff.mp (by rw [h]; exact List.mem_cons_self _ _)
      have : ¬ ((3:ℚ)/10 < top.1) := not_lt.mpr (hle top htop)
      simp [this]
  · rintro ⟨p, hp, hgt⟩
    have hpr : p ∈ rankedDocs query docs := hperm.mem_iff.mpr hp
    cases h : rankedDocs query docs with
    | nil => rw [h] at hpr; exact absurd hpr (List.not_mem_nil p)
    | cons top rest =>
      rw [h] at hpr hsort
      have htople : (3:ℚ)/10 < top.1 := by
        rcases List.mem_cons.mp hpr with heq | hmem
        · exact heq ▸ hgt
        · exact lt_of_lt_of_le hgt (List.rel_of_sorted_cons hsort p hmem)
      exact ⟨by dsimp only; rw [if_pos htople],
        List.Pairwise.sublist (List.take_sublist k (top :: rest)) hsort⟩

/-- Claim C1 witness: a concrete two-page corpus where the query scores 1.0
on the first page, exercising the top-k branch of the claim. -/
theorem claim_C1_witness :
    getRelevantDocuments ("krishna arjuna".toList)
        [⟨"krishna spoke to arjuna".toList, 1, []⟩,
         ⟨"other page".toList, 2, []⟩] 5 =
      .ok (((rankedDocs ("krishna arjuna".toList)
        [⟨"krishna spoke to arjuna".toList, 1, []⟩,
         ⟨"other page".toList, 2, []⟩]).take 5).map Prod.snd) ∧
    ((rankedDocs ("krishna arjuna".toList)
        [⟨"krishna spoke to arjuna".toList, 1, []⟩,
         ⟨"other page".toList, 2, []⟩]).take 5).Sorted scoreGe :=
  (claim_C1_rank_policy ("krishna arjuna".toList)
      [⟨"krishna spoke to arjuna".toList, 1, []⟩,
       ⟨"other page".toList, 2, []⟩] 5 (by simp)).2
    ⟨((1:ℚ), ⟨"krishna spoke to arjuna".toList, 1, []⟩),
      by with_unfolding_all decide, by norm_num⟩

/-- Claim C9 counterexample: on the empty document list the code raises
`ValueError` (modelled as `Except.error`) instead of returning a sequence, so
the claim as stated (no exception for every list, including the empty one)
is false. -/
theorem claim_C9_counterexample :
    getRelevantDocuments ("quantum mechanics".toList) [] 5 =
      .error ("No documents loaded. Call load_and_process_pdf() first.".toList) := rfl

/-- Claim C9 amended: for every NON-empty document list, every query and
every `k`, `get_relevant_documents` returns normally with at most `k`
documents; the empty list is the single exception and raises `ValueError`. -/
theorem claim_C9_amended (query : Str) (docs : List Document) (k : Nat)
    (hne : docs ≠ []) :
    ∃ l, getRelevantDocuments query docs k = .ok l ∧ l.length ≤ k := by
  unfold getRelevantDocuments
  rw [if_neg hne]
  cases h : rankedDocs query docs with
  | nil =>
    exact ⟨_, rfl, List.length_take_le _ _⟩
  | cons top rest =>
    by_cases hlt : (3:ℚ)/10 < top.1
    · refine ⟨_, by dsimp only; rw [if_pos hlt], ?_⟩
      rw [List.length_map]
      exact List.length_take_le _ _
    · exact ⟨_, by dsimp only; rw [if_neg hlt], List.length_take_le _ _⟩

/-- Claim C9 witness: the amended statement at a concrete one-page corpus. -/
theorem claim_C9_witness :
    ∃ l, getRelevantDocuments ("quantum mechanics".toList)
        [⟨"a page about dharma".toList, 1, []⟩] 2 = .ok l ∧ l.length ≤ 2 :=
  claim_C9_amended ("quantum mechanics".toList)
    [⟨"a page about dharma".toList, 1, []⟩] 2 (by simp)

/-- One-time evaluation of the name-map build. -/
theorem buildNameMap_eq : buildNameMap = nameMapList := by with_unfolding_all rfl

/-- One-time evaluation of the known-name set. -/
theorem allKnownNames_eq : allKnownNames = allKnownNamesList := by with_unfolding_all rfl

/-- The Levenshtein distance is bounded by the longer length. -/
theorem levDistance_le_max : ∀ s t : Str, levDistance s t ≤ max s.length t.length := by
  intro s
  induction s with
  | nil =>
    intro t
    simp [levDistance]
  | cons a s ih =>
    intro t
    induction t with
    | nil => simp [levDistance]
    | cons b t iht =>
      by_cases hab : a = b
      · calc levDistance (a :: s) (b :: t) = levDistance s t := by
              simp [levDistance, hab]
          _ ≤ max s.length t.length := ih t
          _ ≤ max (a :: s).length (b :: t).length := by
              simp only [List.length_cons]
              omega
      · have h1 : levDistance (a :: s) (b :: t) =
            1 + min (levDistance s t)
              (min (levDistance (a :: s) t) (levDistance s (b :: t))) := by
          simp [levDistance, hab]
        have h2 : min (levDistance s t)
            (min (levDistance (a :: s) t) (levDistance s (b :: t))) ≤
            levDistance s t := min_le_left _ _
        have h3 := ih t
        simp only [List.length_cons]
        omega

/-- The edit-distance similarity score is nonnegative. -/
theorem editDistanceScore_nonneg (s t : Str) : 0 ≤ editDistanceScore s t := by
  unfold editDistanceScore
  by_cases h : max s.length t.length = 0
  · simp [h]
  · rw [if_neg h]
    push_cast
    have hpos : (0:ℚ) < max (s.length : ℚ) (t.length : ℚ) := by
      exact_mod_cast Nat.pos_of_ne_zero h
    have hle : (levDistance s t : ℚ) ≤ max (s.length : ℚ) (t.length : ℚ) := by
      exact_mod_cast levDistance_le_max s t
    have : (levDistance s t : ℚ) / max (s.length : ℚ) (t.length : ℚ) ≤ 1 :=
      (div_le_one hpos).mpr hle
    linarith

/-- The edit-distance similarity score is at most 1. -/
theorem editDistanceScore_le_one (s t : Str) : editDistanceScore s t ≤ 1 := by
  unfold editDistanceScore
  by_cases h : max s.length t.length = 0
  · simp [h]
  · rw [if_neg h]
    push_cast
    have hpos : (0:ℚ) < max (s.length : ℚ) (t.length : ℚ) := by
      exact_mod_cast Nat.pos_of_ne_zero h
    have hd : (0:ℚ) ≤ (levDistance s t : ℚ) := by positivity
    have : 0 ≤ (levDistance s t : ℚ) / max (s.length : ℚ) (t.length : ℚ) :=
      div_nonneg hd (le_of_lt hpos)
    linarith

/-- A successful partial-containment pass returns the (0.9-penalised) length
ratio of some containment-related map entry meeting the threshold. -/
theorem partialScan_some (θ : ℚ) (n : Str) :
    ∀ (l : List (Str × Str)) (p : Str) (c : ℚ),
      partialScan θ n l = some (p, c) →
      ∃ q ∈ l, (isSubstr n q.1 || isSubstr q.1 n) = true ∧
        θ ≤ ((min n.length q.1.length : ℚ)) / ((max n.length q.1.length : ℚ)) ∧
        c = ((min n.length q.1.length : ℚ)) / ((max n.length q.1.length : ℚ)) * (9/10) ∧
        p = q.2 := by
  intro l
  induction l with
  | nil => intro p c h; simp [partialScan] at h
  | cons q rest ih =>
    intro p c h
    rcases q with ⟨known, primary⟩
    by_cases hc : (isSubstr n known || isSubstr known n) = true
    · by_cases hθ : θ ≤ ((min n.length known.length : ℚ)) / ((max n.length known.length : ℚ))
      · have : partialScan θ n ((known, primary) :: rest) = some (primary,
            ((min n.length known.length : ℚ)) / ((max n.length known.length : ℚ)) * (9/10)) := by
          simp [partialScan, hc, hθ]
        rw [this] at h
        injection h with h'
        injection h' with h1 h2
        exact ⟨(known, primary), List.mem_cons_self _ _, hc, hθ, h2.symm, h1.symm⟩
      · have : partialScan θ n ((known, primary) :: rest) = partialScan θ n rest := by
          simp [partialScan, hc, hθ]
        rw [this] at h
        obtain ⟨q, hq, hrest⟩ := ih p c h
        exact ⟨q, List.mem_cons_of_mem _ hq, hrest⟩
    · have : partialScan θ n ((known, primary) :: rest) = partialScan θ n rest := by
        simp only [partialScan]
        rw [if_neg (by simpa using hc)]
      rw [this] at h
      obtain ⟨q, hq, hrest⟩ := ih p c h
      exact ⟨q, List.mem_cons_of_mem _ hq, hrest⟩

/-- A failing partial-containment pass means every containment-related map
entry has length ratio below the threshold. -/
theorem partialScan_none (θ : ℚ) (n : Str) :
    ∀ (l : List (Str × Str)), partialScan θ n l = none →
      ∀ q ∈ l, (isSubstr n q.1 || isSubstr q.1 n) = true →
        ((min n.length q.1.length : ℚ)) / ((max n.length q.1.length : ℚ)) < θ := by
  intro l
  induction l with
  | nil => intro _ q hq; simp at hq
  | cons q0 rest ih =>
    intro h q hq hc
    rcases q0 with ⟨known, primary⟩
    by_cases hc0 : (isSubstr n known || isSubstr known n) = true
    · by_cases hθ : θ ≤ ((min n.length known.length : ℚ)) / ((max n.length known.length : ℚ))
      · exfalso
        have : partialScan θ n ((known, primary) :: rest) = some (primary,
            ((min n.length known.length : ℚ)) / ((max n.length known.length : ℚ)) * (9/10)) := by
          simp [partialScan, hc0, hθ]
        rw [this] at h
        exact Option.noConfusion h
      · have hrec : partialScan θ n ((known, primary) :: rest) = partialScan θ n rest := by
          simp [partialScan, hc0, hθ]
        rw [hrec] at h
        rcases List.mem_cons.mp hq with heq | hmem
        · rw [heq]
          exact not_le.mp hθ
        · exact ih h q hmem hc
    · have hrec : partialScan θ n ((known, primary) :: rest) = partialScan θ n rest := by
        simp only [partialScan]
        rw [if_neg (by simpa using hc0)]
      rw [hrec] at h
      rcases List.mem_cons.mp hq with heq | hmem
      · exfalso
        rw [heq] at hc
        exact hc0 hc
      · exact ih h q hmem hc

/-- Once the best-edit-distance fold holds a match it keeps one. -/
theorem editFold_isSome (θ : ℚ) (n : Str) :
    ∀ (names : List Str) (acc : Option Str × ℚ), acc.1.isSome →
      (List.foldl (editStepFun θ n) acc names).1.isSome := by
  intro names
  induction names with
  | nil => intro acc h; simpa using h
  | cons kn rest ih =>
    intro acc h
    simp only [List.foldl_cons]
    apply ih
    unfold editStepFun
    by_cases hc : acc.2 < editDistanceScore n kn ∧ θ ≤ editDistanceScore n kn
    · simp [hc]
    · simpa [hc] using h

/-- If the best-edit-distance loop ends with no match, no name passed the
update test against the initial zero best-score. -/
theorem editBest_none_all (θ : ℚ) (n : Str) (names : List Str)
    (h : (editBest θ n names).1 = none) :
    ∀ kn ∈ names, ¬(0 < editDistanceScore n kn ∧ θ ≤ editDistanceScore n kn) := by
  unfold editBest at h
  induction names with
  | nil => intro kn hkn; simp at hkn
  | cons kn0 rest ih =>
    intro kn hkn
    simp only [List.foldl_cons] at h
    by_cases hc : (0:ℚ) < editDistanceScore n kn0 ∧ θ ≤ editDistanceScore n kn0
    · exfalso
      have hstep : editStepFun θ n (none, 0) kn0 = (some kn0, editDistanceScore n kn0) := by
        simp [editStepFun, hc]
      rw [hstep] at h
      have := editFold_isSome θ n rest (some kn0, editDistanceScore n kn0) (by simp)
      rw [h] at this
      simp at this
    · rcases List.mem_cons.mp hkn with heq | hmem
      · rw [heq]; exact hc
      · have hstep : editStepFun θ n (none, 0) kn0 = (none, 0) := by
          simp only [editStepFun]
          rw [if_neg (by simpa using hc)]
        rw [hstep] at h
        exact ih h kn hmem

/-- Conversely, if no name passes the update test the loop returns
`(None, 0.0)`. -/
theorem editBest_none_of_all (θ : ℚ) (n : Str) (names : List Str)
    (h : ∀ kn ∈ names, ¬(0 < editDistanceScore n kn ∧ θ ≤ editDistanceScore n kn)) :
    editBest θ n names = (none, 0) := by
  unfold editBest
  induction names with
  | nil => simp
  | cons kn0 rest ih =>
    simp only [List.foldl_cons]
    have hstep : editStepFun θ n (none, 0) kn0 = (none, 0) := by
      simp only [editStepFun]
      rw [if_neg (by simpa using h kn0 (List.mem_cons_self _ _))]
    rw [hstep]
    exact ih (fun kn hkn => h kn (List.mem_cons_of_mem _ hkn))

/-- Any match produced by the best-edit-distance fold is one of the
scanned names, carries its own edit score, and meets the threshold. -/
theorem editFold_some (θ : ℚ) (n : Str) :
    ∀ (names : List Str) (acc : Option Str × ℚ) (m : Str) (s : ℚ),
      List.foldl (editStepFun θ n) acc names = (some m, s) →
      acc = (some m, s) ∨
        (m ∈ names ∧ s = editDistanceScore n m ∧ θ ≤ s) := by
  intro names
  induction names with
  | nil => intro acc m s h; left; simpa using h
  | cons kn0 rest ih =>
    intro acc m s h
    simp only [List.foldl_cons] at h
    by_cases hc : acc.2 < editDistanceScore n kn0 ∧ θ ≤ editDistanceScore n kn0
    · have hstep : editStepFun θ n acc kn0 = (some kn0, editDistanceScore n kn0) := by
        simp [editStepFun, hc]
      rw [hstep] at h
      rcases ih _ m s h with hacc | hrest
      · right
        have h1 : kn0 = m := by
          have := congrArg Prod.fst hacc
          simpa using this
        have h2 : editDistanceScore n kn0 = s := by
          have := congrArg Prod.snd hacc
          simpa using this
        subst h1
        exact ⟨List.mem_cons_self _ _, h2.symm, h2 ▸ hc.2⟩
      · exact Or.inr ⟨List.mem_cons_of_mem _ hrest.1, hrest.2⟩
    · have hstep : editStepFun θ n acc kn0 = acc := by
        simp only [editStepFun]
        rw [if_neg (by simpa using hc)]
      rw [hstep] at h
      rcases ih _ m s h with hacc | hrest
      · exact Or.inl hacc
      · exact Or.inr ⟨List.mem_cons_of_mem _ hrest.1, hrest.2⟩

/-- Appending to a bucket adds only the appended entry. -/
theorem phonEntries_add (pm : List (Str × List (Str × Str))) (key : Str)
    (v e : Str × Str) (h : e ∈ phonEntries (phonMapAdd pm key v)) :
    e ∈ phonEntries pm ∨ e = v := by
  have hmap : ∀ (l : List (Str × List (Str × Str))),
      e ∈ phonEntries (l.map (fun b => if b.1 = key then (b.1, b.2 ++ [v]) else b)) →
      e ∈ phonEntries l ∨ e = v := by
    intro l
    induction l with
    | nil => intro hl; simp [phonEntries] at hl
    | cons a rest ih =>
      intro hl
      unfold phonEntries at hl ⊢
      simp only [List.map_cons, List.flatten_cons, List.mem_append] at hl ⊢
      rcases hl with hhead | htail
      · by_cases ha : a.1 = key
        · rw [if_pos ha] at hhead
          simp only at hhead
          rcases List.mem_append.mp hhead with hin | hv
          · exact Or.inl (Or.inl hin)
          · right; simpa using hv
        · rw [if_neg ha] at hhead
          exact Or.inl (Or.inl hhead)
      · rcases ih htail with hin | hv
        · exact Or.inl (Or.inr hin)
        · exact Or.inr hv
  unfold phonMapAdd at h
  by_cases hk : pm.any (fun b => decide (b.1 = key))
  · rw [if_pos hk] at h
    exact hmap pm h
  · rw [if_neg hk] at h
    unfold phonEntries at h ⊢
    simp only [List.map_append, List.flatten_append] at h
    rcases List.mem_append.mp h with hin | hnew
    · exact Or.inl hin
    · right; simpa using hnew

/-- A bucket's contents are among the phonetic map's entries. -/
theorem phonBucket_sub (pm : List (Str × List (Str × Str))) (h : Str)
    (e : Str × Str) (he : e ∈ phonBucket pm h) : e ∈ phonEntries pm := by
  induction pm with
  | nil => simp [phonBucket] at he
  | cons b rest ih =>
    unfold phonBucket at he
    unfold phonEntries
    simp only [List.map_cons, List.flatten_cons, List.mem_append]
    by_cases hk : b.1 = h
    · rw [if_pos hk] at he
      exact Or.inl he
    · rw [if_neg hk] at he
      exact Or.inr (ih he)

/-- Every entry of the phonetic map is one of the `(variant, primary)` pairs
of the character database, whatever the hash functions. -/
theorem buildPhoneticMap_entries (sdx mp ny : Str → Str) (e : Str × Str)
    (he : e ∈ phonEntries (buildPhoneticMap sdx mp ny)) : e ∈ charEntries := by
  unfold buildPhoneticMap at he
  suffices hgen : ∀ (cis : List CharacterInfo) (pm0 : List (Str × List (Str × Str))),
      e ∈ phonEntries (cis.foldl (fun pm ci =>
        let primary := lowerStr ci.primary_name
        let namesToAdd := primary :: ci.aliases.map lowerStr
        namesToAdd.foldl (fun pm nm =>
          let pm := phonMapAdd pm (sdx nm) (nm, primary)
          let pm := phonMapAdd pm (mp nm) (nm, primary)
          phonMapAdd pm (ny nm) (nm, primary)) pm) pm0) →
      e ∈ phonEntries pm0 ∨ ∃ ci ∈ cis, ∃ nm ∈ lowerStr ci.primary_name :: ci.aliases.map lowerStr,
        e = (nm, lowerStr ci.primary_name) by
    rcases hgen gitaCharacters [] he with habs | ⟨ci, hci, nm, hnm, henm⟩
    · simp [phonEntries] at habs
    · unfold charEntries
      simp only [List.mem_flatMap, List.mem_map]
      exact ⟨ci, hci, nm, hnm, henm.symm⟩
  have hinner : ∀ (nms : List Str) (primary : Str) (pm0 : List (Str × List (Str × Str))),
      e ∈ phonEntries (nms.foldl (fun pm nm =>
        let pm := phonMapAdd pm (sdx nm) (nm, primary)
        let pm := phonMapAdd pm (mp nm) (nm, primary)
        phonMapAdd pm (ny nm) (nm, primary)) pm0) →
      e ∈ phonEntries pm0 ∨ ∃ nm ∈ nms, e = (nm, primary) := by
    intro nms
    induction nms with
    | nil => intro primary pm0 h; exact Or.inl h
    | cons nm0 rest ih =>
      intro primary pm0 h
      simp only [List.foldl_cons] at h
      rcases ih primary _ h with hpm | ⟨nm, hnm, he'⟩
      · rcases phonEntries_add _ _ _ _ hpm with hpm2 | hv
        · rcases phonEntries_add _ _ _ _ hpm2 with hpm3 | hv
          · rcases phonEntries_add _ _ _ _ hpm3 with hpm4 | hv
            · exact Or.inl hpm4
            · exact Or.inr ⟨nm0, List.mem_cons_self _ _, hv⟩
          · exact Or.inr ⟨nm0, List.mem_cons_self _ _, hv⟩
        · exact Or.inr ⟨nm0, List.mem_cons_self _ _, hv⟩
      · exact Or.inr ⟨nm, List.mem_cons_of_mem _ hnm, he'⟩
  intro cis
  induction cis with
  | nil => intro pm0 h; exact Or.inl h
  | cons ci rest ih =>
    intro pm0 h
    simp only [List.foldl_cons] at h
    rcases ih _ h with hpm | ⟨ci', hci', hrest⟩
    · rcases hinner (lowerStr ci.primary_name :: ci.aliases.map lowerStr)
          (lowerStr ci.primary_name) pm0 hpm with hpm0 | ⟨nm, hnm, he'⟩
      · exact Or.inl hpm0
      · exact Or.inr ⟨ci, List.mem_cons_self _ _, nm, hnm, he'⟩
    · exact Or.inr ⟨ci', List.mem_cons_of_mem _ hci', hrest⟩

/-- The phonetic matches for any input are character-database entries. -/
theorem getPhoneticMatches_sub (sdx mp ny : Str → Str) (name : Str)
    (e : Str × Str) (he : e ∈ getPhoneticMatches sdx mp ny name) :
    e ∈ charEntries := by
  unfold getPhoneticMatches at he
  have := List.mem_dedup.mp he
  rcases List.mem_append.mp this with h12 | h3
  · rcases List.mem_append.mp h12 with h1 | h2
    · exact buildPhoneticMap_entries sdx mp ny e (phonBucket_sub _ _ _ h1)
    · exact buildPhoneticMap_entries sdx mp ny e (phonBucket_sub _ _ _ h2)
  · exact buildPhoneticMap_entries sdx mp ny e (phonBucket_sub _ _ _ h3)

/-- Python's `max(..., key=...)` returns an element of the collection. -/
theorem maxByEditScore_mem (name : Str) (m0 : Str × Str) (ms : List (Str × Str)) :
    maxByEditScore name m0 ms ∈ m0 :: ms := by
  unfold maxByEditScore
  suffices hgen : ∀ (l : List (Str × Str)) (b : Str × Str),
      l.foldl (fun b x =>
        if editDistanceScore name b.1 < editDistanceScore name x.1 then x else b) b = b ∨
      l.foldl (fun b x =>
        if editDistanceScore name b.1 < editDistanceScore name x.1 then x else b) b ∈ l by
    rcases hgen ms m0 with h | h
    · rw [h]; exact List.mem_cons_self _ _
    · exact List.mem_cons_of_mem _ h
  intro l
  induction l with
  | nil => intro b; left; rfl
  | cons x rest ih =>
    intro b
    simp only [List.foldl_cons]
    by_cases hc : editDistanceScore name b.1 < editDistanceScore name x.1
    · rw [if_pos hc]
      rcases ih x with h | h
      · right; rw [h]; exact List.mem_cons_self _ _
      · right; exact List.mem_cons_of_mem _ h
    · rw [if_neg hc]
      rcases ih b with h | h
      · left; exact h
      · right; exact List.mem_cons_of_mem _ h

/-- Concrete facts about the character database: every phonetic-map entry
name is a known name and a key of the name map, and is nonempty. -/
theorem charEntries_facts : ∀ e ∈ charEntries,
    e.1 ∈ allKnownNames ∧ (dictGet? buildNameMap e.1).isSome = true ∧ e.1 ≠ [] := by
  rw [allKnownNames_eq, buildNameMap_eq]
  with_unfolding_all decide

/-- Concrete facts about the name map: every value is a key, keys are
nonempty, the empty string is not a key, and every known name is a nonempty
key. -/
theorem nameMap_facts :
    (∀ p ∈ buildNameMap, (dictGet? buildNameMap p.2).isSome = true ∧ p.1 ≠ []) ∧
    dictGet? buildNameMap [] = none ∧
    (∀ nm ∈ allKnownNames, (dictGet? buildNameMap nm).isSome = true ∧ nm ≠ []) := by
  rw [allKnownNames_eq, buildNameMap_eq]
  with_unfolding_all decide

/-- Claim C2: whenever `correct_name` resolves an input through the phonetic
fallback (exact, substring and edit-distance steps all failed), the returned
confidence — the edit score after the ×0.8 penalty — is at least the
threshold.  (For positive thresholds the fallback can in fact never accept,
because its candidate's pre-penalty edit score was already rejected by the
edit-distance pass; for non-positive thresholds the penalised score still
meets the threshold.) -/
theorem claim_C2_phonetic_confidence (sdx mp ny : Str → Str) (θ : ℚ)
    (name c : Str) (conf : ℚ)
    (hne : ¬(name = [] ∨ stripStr name = []))
    (hex : dictGet? buildNameMap (stripStr (lowerStr name)) = none)
    (hpart : partialScan θ (stripStr (lowerStr name)) buildNameMap = none)
    (hedit : (editBest θ (stripStr (lowerStr name)) allKnownNames).1 = none)
    (hphon : phoneticStep sdx mp ny θ (stripStr (lowerStr name)) = some (c, conf)) :
    correctName sdx mp ny θ name = .ok (some c, conf) ∧ θ ≤ conf := by
  constructor
  · unfold correctName
    rw [if_neg hne]
    dsimp only
    rw [hex, hpart]
    dsimp only
    have hb : editBest θ (stripStr (lowerStr name)) allKnownNames =
        (none, (editBest θ (stripStr (lowerStr name)) allKnownNames).2) := by
      rw [← hedit]
    rw [hb]
    dsimp only [pyTruthyOpt]
    rw [hphon]
    rfl
  · unfold phoneticStep at hphon
    cases hm : getPhoneticMatches sdx mp ny (stripStr (lowerStr name)) with
    | nil => rw [hm] at hphon; exact Option.noConfusion hphon
    | cons m0 ms =>
      rw [hm] at hphon
      dsimp only at hphon
      rcases ite_eq_iff.mp hphon with ⟨hθs, heq⟩ | ⟨hθs, heq⟩
      · have hpair := Option.some.inj heq
        have hconf : conf = editDistanceScore (stripStr (lowerStr name))
            (maxByEditScore (stripStr (lowerStr name)) m0 ms).1 * (8/10) :=
          (congrArg Prod.snd hpair).symm
        by_cases hθpos : 0 < θ
        · exfalso
          have hmem : maxByEditScore (stripStr (lowerStr name)) m0 ms ∈
              getPhoneticMatches sdx mp ny (stripStr (lowerStr name)) := by
            rw [hm]; exact maxByEditScore_mem _ m0 ms
          have hce := getPhoneticMatches_sub sdx mp ny _ _ hmem
          have hkn := (charEntries_facts _ hce).1
          have hno := editBest_none_all θ (stripStr (lowerStr name)) allKnownNames hedit
            _ hkn
          exact hno ⟨lt_of_lt_of_le hθpos hθs, hθs⟩
        · have hs0 : 0 ≤ editDistanceScore (stripStr (lowerStr name))
              (maxByEditScore (stripStr (lowerStr name)) m0 ms).1 :=
            editDistanceScore_nonneg _ _
          have hc0 : (0:ℚ) ≤ conf := by
            rw [hconf]; positivity
          linarith [not_lt.mp hθpos]
      · exact Option.noConfusion heq

/-- Claim C2 witness: with threshold 0, hash functions colliding "zq" with
"krishna", and input "zq", the phonetic fallback fires and returns
confidence 0 ≥ threshold. -/
theorem claim_C2_witness :
    correctName hashW hashW hashW 0 ("zq".toList) =
      .ok (some ("krishna".toList), 0) ∧ (0:ℚ) ≤ 0 := by
  have h := claim_C2_phonetic_confidence hashW hashW hashW 0 ("zq".toList)
    ("krishna".toList) 0
    (by with_unfolding_all decide)
    (by rw [buildNameMap_eq]; with_unfolding_all decide)
    (by rw [buildNameMap_eq]; with_unfolding_all decide)
    (by
      rw [editBest_none_of_all 0 (stripStr (lowerStr ("zq".toList))) allKnownNames
        (by rw [allKnownNames_eq]; with_unfolding_all decide)])
    (by with_unfolding_all decide)
  exact h

/-- The strip of a string is empty exactly when all its characters are
whitespace. -/
theorem stripStr_eq_nil_iff (s : Str) :
    stripStr s = [] ↔ ∀ c ∈ s, isSpaceCh c = true := by
  unfold stripStr
  rw [List.reverse_eq_nil_iff, List.dropWhile_eq_nil_iff]
  constructor
  · intro h c hc
    have hsplit : c ∈ List.takeWhile (fun c => isSpaceCh c) s ++
        List.dropWhile (fun c => isSpaceCh c) s := by
      rw [List.takeWhile_append_dropWhile]
      exact hc
    rcases List.mem_append.mp hsplit with htk | hdw
    · exact List.mem_takeWhile_imp htk
    · exact h c (List.mem_reverse.mpr hdw)
  · intro h c hc
    have : c ∈ List.dropWhile (fun c => isSpaceCh c) s := List.mem_reverse.mp hc
    exact h c (List.Sublist.mem this (List.dropWhile_sublist _))

/-- Whitespace characters are unchanged by lower-casing. -/
theorem lowerCh_space {c : Char} (h : isSpaceCh c = true) : lowerCh c = c := by
  have htn : c.toNat < 65 := by
    unfold isSpaceCh at h
    simp only [Bool.or_eq_true, decide_eq_true_eq] at h
    omega
  unfold lowerCh
  rw [if_neg (by
    unfold isUpperCh
    simp only [Bool.and_eq_true, decide_eq_true_eq, not_and]
    intro hcon
    omega)]

/-- A string of whitespace stays whitespace after lower-casing. -/
theorem stripStr_lowerStr_nil {s : Str} (h : stripStr s = []) :
    stripStr (lowerStr s) = [] := by
  have hall := (stripStr_eq_nil_iff s).mp h
  have hmap : lowerStr s = s := by
    unfold lowerStr
    have hcg : ∀ c ∈ s, lowerCh c = id c := fun c hc => lowerCh_space (hall c hc)
    rw [List.map_congr_left hcg, List.map_id]
  rw [hmap, h]

/-- The edit score of the empty string against a nonempty one is 0. -/
theorem editScore_nil (kn : Str) (h : kn ≠ []) : editDistanceScore [] kn = 0 := by
  unfold editDistanceScore
  have hlen : ([] : Str).length = 0 := rfl
  have hmax : max ([] : Str).length kn.length = kn.length := by simp
  have hne : kn.length ≠ 0 := fun hc => h (List.length_eq_zero.mp hc)
  rw [if_neg (by rw [hmax]; exact hne)]
  have hlev : levDistance [] kn = kn.length := by simp [levDistance]
  rw [hlev, hmax]
  rw [div_self (by exact_mod_cast hne)]
  ring

/-- For a positive threshold, once the edit-distance pass has rejected every
known name the phonetic fallback can never accept: its best candidate's
pre-penalty edit score was already rejected. -/
theorem phoneticStep_none_of_editFail (sdx mp ny : Str → Str) (θ : ℚ) (n : Str)
    (hθpos : 0 < θ) (hedit : (editBest θ n allKnownNames).1 = none) :
    phoneticStep sdx mp ny θ n = none := by
  unfold phoneticStep
  cases hm : getPhoneticMatches sdx mp ny n with
  | nil => rfl
  | cons m0 ms =>
    dsimp only
    have hmem : maxByEditScore n m0 ms ∈ getPhoneticMatches sdx mp ny n := by
      rw [hm]; exact maxByEditScore_mem _ m0 ms
    have hce := getPhoneticMatches_sub sdx mp ny _ _ hmem
    have hkn := (charEntries_facts _ hce).1
    have hno := editBest_none_all θ n allKnownNames hedit _ hkn
    have hlt : editDistanceScore n (maxByEditScore n m0 ms).1 < θ := by
      by_contra hge
      push_neg at hge
      exact hno ⟨lt_of_lt_of_le hθpos hge, hge⟩
    rw [if_neg (not_le.mpr hlt)]

/-- Claim C5: for any threshold in (0, 1], `correct_name` returns a
confidence in [0, 1]; the canonical name is null iff the confidence is
exactly 0, iff no resolution candidate reaches the threshold. -/
theorem claim_C5_confidence_contract (sdx mp ny : Str → Str) (θ : ℚ) (name : Str)
    (h0 : 0 < θ) (h1 : θ ≤ 1) :
    ∃ c conf, correctName sdx mp ny θ name = .ok (c, conf) ∧
      0 ≤ conf ∧ conf ≤ 1 ∧ (c = none ↔ conf = 0) ∧
      (c = none ↔ ¬ candidateReachesThreshold θ (stripStr (lowerStr name))) := by
  by_cases hemp : name = [] ∨ stripStr name = []
  · have hnil : stripStr (lowerStr name) = [] := by
      rcases hemp with h | h
      · rw [h]; rfl
      · exact stripStr_lowerStr_nil h
    refine ⟨none, 0, ?_, le_refl _, by norm_num, by simp, ?_⟩
    · unfold correctName
      rw [if_pos hemp]
    · rw [hnil]
      refine iff_of_true rfl ?_
      intro hre
      rcases hre with hex | ⟨q, hq, _, hθr⟩ | ⟨kn, hkn, hθs⟩
      · rw [nameMap_facts.2.1] at hex
        simp at hex
      · have hz : min ((([]:Str).length : ℚ)) ((q.1.length : ℚ)) /
            max ((([]:Str).length : ℚ)) ((q.1.length : ℚ)) = 0 := by
          have h00 : (([]:Str).length : ℚ) = 0 := by simp
          rw [h00, min_eq_left (by positivity : (0:ℚ) ≤ (q.1.length:ℚ)), zero_div]
        rw [hz] at hθr
        linarith
      · have hkne := (nameMap_facts.2.2 kn hkn).2
        rw [editScore_nil kn hkne] at hθs
        linarith
  · cases hdx : dictGet? buildNameMap (stripStr (lowerStr name)) with
    | some p =>
      refine ⟨some p, 1, ?_, by norm_num, le_refl _,
        iff_of_false (by simp) one_ne_zero,
        iff_of_false (by simp) (fun hnr => hnr (Or.inl (by rw [hdx]; rfl)))⟩
      unfold correctName
      rw [if_neg hemp]
      dsimp only
      rw [hdx]
    | none =>
      cases hps : partialScan θ (stripStr (lowerStr name)) buildNameMap with
      | some pc =>
        obtain ⟨p, cnf⟩ := pc
        obtain ⟨q, hq, hcont, hθr, hceq, hpeq⟩ :=
          partialScan_some θ _ buildNameMap p cnf hps
        have hq1ne : q.1 ≠ [] := (nameMap_facts.1 q hq).2
        have hmaxpos : (0:ℚ) <
            max ((stripStr (lowerStr name)).length : ℚ) (q.1.length : ℚ) := by
          have h1' : 0 < q.1.length := List.length_pos.mpr hq1ne
          have h2' : (0:ℚ) < (q.1.length : ℚ) := by exact_mod_cast h1'
          exact lt_of_lt_of_le h2' (le_max_right _ _)
        have hrle : min ((stripStr (lowerStr name)).length : ℚ) (q.1.length : ℚ) /
            max ((stripStr (lowerStr name)).length : ℚ) (q.1.length : ℚ) ≤ 1 := by
          rw [div_le_one hmaxpos]
          exact min_le_max
        have hrnn : (0:ℚ) ≤ min ((stripStr (lowerStr name)).length : ℚ) (q.1.length : ℚ) /
            max ((stripStr (lowerStr name)).length : ℚ) (q.1.length : ℚ) := by
          apply div_nonneg _ (le_of_lt hmaxpos)
          positivity
        have hcnfpos : 0 < cnf := by
          rw [hceq]
          have hrpos : (0:ℚ) <
              min ((stripStr (lowerStr name)).length : ℚ) (q.1.length : ℚ) /
              max ((stripStr (lowerStr name)).length : ℚ) (q.1.length : ℚ) :=
            lt_of_lt_of_le h0 hθr
          nlinarith
        have hcnfle : cnf ≤ 1 := by
          rw [hceq]
          nlinarith [hrle, hrnn]
        refine ⟨some p, cnf, ?_, le_of_lt hcnfpos, hcnfle,
          iff_of_false (by simp) (ne_of_gt hcnfpos),
          iff_of_false (by simp) (fun hnr => hnr (Or.inr (Or.inl ⟨q, hq, hcont, hθr⟩)))⟩
        unfold correctName
        rw [if_neg hemp]
        dsimp only
        rw [hdx]
        dsimp only
        rw [hps]
      | none =>
        rcases hbe : editBest θ (stripStr (lowerStr name)) allKnownNames with ⟨b1, b2⟩
        cases b1 with
        | some bm =>
          rcases editFold_some θ (stripStr (lowerStr name)) allKnownNames (none, 0) bm b2
              (by rw [← hbe]; rfl) with habs | ⟨hmem, hbs, hθb⟩
          · exact absurd (congrArg Prod.fst habs) (by simp)
          · have hbmne : bm ≠ [] := (nameMap_facts.2.2 bm hmem).2
            obtain ⟨p, hp⟩ := Option.isSome_iff_exists.mp (nameMap_facts.2.2 bm hmem).1
            have hie : bm.isEmpty = false := by
              cases bm with
              | nil => exact absurd rfl hbmne
              | cons a t => rfl
            refine ⟨some p, b2, ?_, hbs ▸ editDistanceScore_nonneg _ _,
              hbs ▸ editDistanceScore_le_one _ _,
              iff_of_false (by simp) (ne_of_gt (lt_of_lt_of_le h0 hθb)),
              iff_of_false (by simp)
                (fun hnr => hnr (Or.inr (Or.inr ⟨bm, hmem, hbs ▸ hθb⟩)))⟩
            unfold correctName
            rw [if_neg hemp]
            dsimp only
            rw [hdx]
            dsimp only
            rw [hps]
            dsimp only
            rw [hbe]
            dsimp only [pyTruthyOpt]
            rw [hie]
            simp only [Bool.not_false]
            rw [if_pos trivial]
            rw [hp]
        | none =>
          have hedit1 : (editBest θ (stripStr (lowerStr name)) allKnownNames).1 = none := by
            rw [hbe]
          have hphn : phoneticStep sdx mp ny θ (stripStr (lowerStr name)) = none :=
            phoneticStep_none_of_editFail sdx mp ny θ _ h0 hedit1
          refine ⟨none, 0, ?_, le_refl _, by norm_num, by simp, iff_of_true rfl ?_⟩
          · unfold correctName
            rw [if_neg hemp]
            dsimp only
            rw [hdx]
            dsimp only
            rw [hps]
            dsimp only
            rw [hbe]
            dsimp only [pyTruthyOpt]
            rw [hphn]
            rfl
          · intro hre
            rcases hre with hex | ⟨q, hq, hcont, hθr⟩ | ⟨kn, hkn, hθs⟩
            · rw [hdx] at hex
              simp at hex
            · have := partialScan_none θ (stripStr (lowerStr name)) buildNameMap hps q hq hcont
              linarith
            · exact editBest_none_all θ (stripStr (lowerStr name)) allKnownNames hedit1
                kn hkn ⟨lt_of_lt_of_le h0 hθs, hθs⟩

/-- Claim C5 witness: the default threshold 0.6 satisfies the hypotheses. -/
theorem claim_C5_witness :
    ∃ c conf, correctName id id id (6/10) ("krsna".toList) = .ok (c, conf) ∧
      0 ≤ conf ∧ conf ≤ 1 ∧ (c = none ↔ conf = 0) ∧
      (c = none ↔ ¬ candidateReachesThreshold (6/10)
        (stripStr (lowerStr ("krsna".toList)))) :=
  claim_C5_confidence_contract id id id (6/10) ("krsna".toList)
    (by norm_num) (by norm_num)

/-- Claim C10: every canonical value of the name map is itself a key of the
name map, and consequently `correct_name` never raises `KeyError` — for all
hash functions, thresholds and inputs it returns normally. -/
theorem claim_C10_name_map_closed :
    (∀ p ∈ buildNameMap, (dictGet? buildNameMap p.2).isSome = true) ∧
    (∀ (sdx mp ny : Str → Str) (θ : ℚ) (name : Str),
      ∃ r, correctName sdx mp ny θ name = .ok r) := by
  constructor
  · intro p hp
    exact (nameMap_facts.1 p hp).1
  · intro sdx mp ny θ name
    by_cases hemp : name = [] ∨ stripStr name = []
    · exact ⟨(none, 0), by unfold correctName; rw [if_pos hemp]⟩
    · cases hdx : dictGet? buildNameMap (stripStr (lowerStr name)) with
      | some p =>
        refine ⟨(some p, 1), ?_⟩
        unfold correctName
        rw [if_neg hemp]
        dsimp only
        rw [hdx]
      | none =>
        cases hps : partialScan θ (stripStr (lowerStr name)) buildNameMap with
        | some pc =>
          obtain ⟨p, cnf⟩ := pc
          refine ⟨(some p, cnf), ?_⟩
          unfold correctName
          rw [if_neg hemp]
          dsimp only
          rw [hdx]
          dsimp only
          rw [hps]
        | none =>
          rcases hbe : editBest θ (stripStr (lowerStr name)) allKnownNames with ⟨b1, b2⟩
          cases b1 with
          | some bm =>
            rcases editFold_some θ (stripStr (lowerStr name)) allKnownNames (none, 0) bm b2
                (by rw [← hbe]; rfl) with habs | ⟨hmem, hbs, hθb⟩
            · exact absurd (congrArg Prod.fst habs) (by simp)
            · have hbmne : bm ≠ [] := (nameMap_facts.2.2 bm hmem).2
              obtain ⟨p, hp⟩ := Option.isSome_iff_exists.mp (nameMap_facts.2.2 bm hmem).1
              have hie : bm.isEmpty = false := by
                cases bm with
                | nil => exact absurd rfl hbmne
                | cons a t => rfl
              refine ⟨(some p, b2), ?_⟩
              unfold correctName
              rw [if_neg hemp]
              dsimp only
              rw [hdx]
              dsimp only
              rw [hps]
              dsimp only
              rw [hbe]
              dsimp only [pyTruthyOpt]
              rw [hie]
              simp only [Bool.not_false]
              rw [if_pos trivial]
              rw [hp]
          | none =>
            cases hph : phoneticStep sdx mp ny θ (stripStr (lowerStr name)) with
            | some pc =>
              obtain ⟨p, cnf⟩ := pc
              refine ⟨(some p, cnf), ?_⟩
              unfold correctName
              rw [if_neg hemp]
              dsimp only
              rw [hdx]
              dsimp only
              rw [hps]
              dsimp only
              rw [hbe]
              dsimp only [pyTruthyOpt]
              rw [hph]
              rfl
            | none =>
              refine ⟨(none, 0), ?_⟩
              unfold correctName
              rw [if_neg hemp]
              dsimp only
              rw [hdx]
              dsimp only
              rw [hps]
              dsimp only
              rw [hbe]
              dsimp only [pyTruthyOpt]
              rw [hph]
              rfl

/-- Claim C10 witness: the map entry for "krsna" has value "krishna", which
is itself a key; `correct_name` returns normally on "krsna". -/
theorem claim_C10_witness :
    (dictGet? buildNameMap ("krishna".toList)).isSome = true ∧
    ∃ r, correctName id id id (6/10) ("krsna".toList) = .ok r :=
  ⟨claim_C10_name_map_closed.1 ("krsna".toList, "krishna".toList)
      (by rw [buildNameMap_eq]; with_unfolding_all decide),
    claim_C10_name_map_closed.2 id id id (6/10) ("krsna".toList)⟩

/- ----------------------------------------------------------------- -/
/- TextProcessor lemmas (claims C3, C4, C7, C8)                       -/
/- ----------------------------------------------------------------- -/

/-- Unpacking `allLowerAlpha` into per-character bounds. -/
theorem allLowerAlpha_mem {s : Str} (h : allLowerAlpha s = true) :
    ∀ c ∈ s, 97 ≤ c.toNat ∧ c.toNat ≤ 122 := by
  intro c hc
  have h1 := List.all_eq_true.mp h c hc
  simp only [Bool.and_eq_true, decide_eq_true_eq] at h1
  exact h1

/-- A lower-case ASCII letter is not whitespace. -/
theorem isSpaceCh_false_of_lower {c : Char} (h : 97 ≤ c.toNat ∧ c.toNat ≤ 122) :
    isSpaceCh c = false := by
  unfold isSpaceCh
  simp only [Bool.or_eq_false_iff, decide_eq_false_iff_not]
  omega

/-- A lower-case ASCII letter is not upper case. -/
theorem isUpperCh_false_of_lower {c : Char} (h : 97 ≤ c.toNat ∧ c.toNat ≤ 122) :
    isUpperCh c = false := by
  unfold isUpperCh
  simp only [Bool.and_eq_false_iff, decide_eq_false_iff_not]
  omega

/-- A lower-case ASCII letter satisfies `isLowerCh`. -/
theorem isLowerCh_true_of_lower {c : Char} (h : 97 ≤ c.toNat ∧ c.toNat ≤ 122) :
    isLowerCh c = true := by
  unfold isLowerCh
  simp only [Bool.and_eq_true, decide_eq_true_eq]
  omega

/-- A lower-case ASCII letter is a letter. -/
theorem isAlphaCh_true_of_lower {c : Char} (h : 97 ≤ c.toNat ∧ c.toNat ≤ 122) :
    isAlphaCh c = true := by
  unfold isAlphaCh
  rw [isLowerCh_true_of_lower h, Bool.or_true]

/-- `str.lower` fixes a lower-case ASCII letter. -/
theorem lowerCh_eq_self_of_lower {c : Char} (h : 97 ≤ c.toNat ∧ c.toNat ≤ 122) :
    lowerCh c = c := by
  unfold lowerCh
  rw [isUpperCh_false_of_lower h]
  rfl

/-- `dropWhile` is the identity when no character satisfies the test. -/
theorem dropWhile_eq_self_of {p : Char → Bool} {s : Str}
    (h : ∀ c ∈ s, p c = false) : s.dropWhile p = s := by
  cases s with
  | nil => rfl
  | cons a rest =>
    rw [List.dropWhile_cons, h a (List.mem_cons_self a rest)]
    simp

/-- `str.strip()` is the identity on strings without whitespace. -/
theorem stripStr_eq_self_of {s : Str} (h : ∀ c ∈ s, isSpaceCh c = false) :
    stripStr s = s := by
  unfold stripStr
  rw [dropWhile_eq_self_of h, dropWhile_eq_self_of (fun c hc => h c (List.mem_reverse.mp hc)),
    List.reverse_reverse]

/-- `str.lower` is the identity on all-lower-case strings. -/
theorem lowerStr_eq_self_of {s : Str} (h : allLowerAlpha s = true) :
    lowerStr s = s := by
  unfold lowerStr
  rw [List.map_congr_left (fun c hc => lowerCh_eq_self_of_lower (allLowerAlpha_mem h c hc))]
  exact List.map_id s

/-- `hasAdj p q` fails when no character satisfies `q`. -/
theorem hasAdj_eq_false_of {p q : Char → Bool} :
    ∀ s : Str, (∀ c ∈ s, q c = false) → hasAdj p q s = false := by
  intro s
  induction s with
  | nil => intro _; rfl
  | cons a rest ih =>
    intro h
    cases rest with
    | nil => rfl
    | cons b rest2 =>
      show ((p a && q b) || hasAdj p q (b :: rest2)) = false
      rw [h b (List.mem_cons_of_mem a (List.mem_cons_self b rest2)), Bool.and_false,
        Bool.false_or]
      exact ih (fun c hc => h c (List.mem_cons_of_mem a hc))

/-- Prepending a character preserves a `hasTriple` hit. -/
theorem hasTriple_cons {p q r : Char → Bool} {t : Str} (c : Char)
    (h : hasTriple p q r t = true) : hasTriple p q r (c :: t) = true := by
  match t with
  | [] => simp [hasTriple] at h
  | [a] => simp [hasTriple] at h
  | a :: b :: rest =>
    show ((p c && q a && r b) || hasTriple p q r (a :: b :: rest)) = true
    rw [h, Bool.or_true]

/-- Prepending a prefix preserves a `hasTriple` hit. -/
theorem hasTriple_append_left {p q r : Char → Bool} {t : Str} (s : Str)
    (h : hasTriple p q r t = true) : hasTriple p q r (s ++ t) = true := by
  induction s with
  | nil => exact h
  | cons c s ih => exact hasTriple_cons c ih

/-- Appending a suffix preserves a `hasTriple` hit. -/
theorem hasTriple_append_right {p q r : Char → Bool} (t : Str) :
    ∀ s : Str, hasTriple p q r s = true → hasTriple p q r (s ++ t) = true := by
  intro s
  induction s with
  | nil => intro h; simp [hasTriple] at h
  | cons c s ih =>
    intro h
    match s, ih with
    | [], _ => simp [hasTriple] at h
    | [a], _ => simp [hasTriple] at h
    | a :: b :: rest, ih =>
      have h2 : ((p c && q a && r b) || hasTriple p q r (a :: b :: rest)) = true := h
      simp only [Bool.or_eq_true] at h2
      rcases h2 with h1 | h1
      · show ((p c && q a && r b) || hasTriple p q r (a :: b :: (rest ++ t))) = true
        rw [h1, Bool.true_or]
      · have h3 := ih h1
        show ((p c && q a && r b) || hasTriple p q r ((a :: b :: rest) ++ t)) = true
        rw [h3, Bool.or_true]

/-- A `hasTriple` hit survives passing to any superstring. -/
theorem hasTriple_mono {p q r : Char → Bool} {s t : Str}
    (hst : s <:+: t) (h : hasTriple p q r s = true) : hasTriple p q r t = true := by
  rcases hst with ⟨u, v, rfl⟩
  rw [List.append_assoc]
  exact hasTriple_append_left u (hasTriple_append_right v s h)

/-- A substring's characters all occur in the haystack. -/
theorem mem_of_isSubstr {n h : Str} (hs : isSubstr n h = true) :
    ∀ c ∈ n, c ∈ h :=
  fun c hc => (of_decide_eq_true hs).sublist.subset hc

/-- A substring is no longer than the haystack. -/
theorem isSubstr_length_le {n h : Str} (hs : isSubstr n h = true) :
    n.length ≤ h.length :=
  (of_decide_eq_true hs).sublist.length_le

/-- All-lower-case-ness passes to substrings. -/
theorem allLowerAlpha_of_isSubstr {n h : Str} (hs : isSubstr n h = true)
    (hl : allLowerAlpha h = true) : allLowerAlpha n = true :=
  List.all_eq_true.mpr (fun c hc => List.all_eq_true.mp hl c (mem_of_isSubstr hs c hc))

/-- The monotone flag passes to superstrings. -/
theorem tripleFlag_of_isSubstr {n h : Str} (hs : isSubstr n h = true)
    (ht : tripleFlag n = true) : tripleFlag h = true := by
  have hin := of_decide_eq_true hs
  unfold tripleFlag at ht ⊢
  simp only [Bool.or_eq_true] at ht ⊢
  rcases ht with ((h1 | h1) | h1) | h1
  · exact Or.inl (Or.inl (Or.inl (hasTriple_mono hin h1)))
  · exact Or.inl (Or.inl (Or.inr (hasTriple_mono hin h1)))
  · exact Or.inl (Or.inr (hasTriple_mono hin h1))
  · exact Or.inr (hasTriple_mono hin h1)

/-- The monotone flag is part of the full error-pattern battery. -/
theorem matchesErrorPatterns_of_tripleFlag {s : Str} (h : tripleFlag s = true) :
    matchesErrorPatterns s = true := by
  unfold tripleFlag at h
  simp only [Bool.or_eq_true] at h
  rcases h with ((h1 | h1) | h1) | h1 <;>
    simp [matchesErrorPatterns, h1]

/-- A hit of `assocFindStr` exposes a matching entry of the list. -/
theorem assocFindStr_some {m : List (Str × Str)} {k v : Str} :
    assocFindStr m k = some v → (k, v) ∈ m := by
  induction m with
  | nil => intro h; cases h
  | cons kv rest ih =>
    obtain ⟨k1, v1⟩ := kv
    intro h
    unfold assocFindStr at h
    by_cases he : k1 = k
    · rw [if_pos he] at h
      injection h with h2
      subst h2; subst he
      exact List.mem_cons_self _ _
    · rw [if_neg he] at h
      exact List.mem_cons_of_mem _ (ih h)

/-- A hit of the substring pass exposes a long matching entry. -/
theorem concatSubstFind_some {w : Str} {m : List (Str × Str)} {kv : Str × Str} :
    concatSubstFind w m = some kv →
    kv ∈ m ∧ isSubstr kv.1 w = true ∧ 5 < kv.1.length := by
  induction m with
  | nil => intro h; cases h
  | cons e rest ih =>
    obtain ⟨k1, v1⟩ := e
    intro h
    unfold concatSubstFind at h
    by_cases hc : isSubstr k1 w = true ∧ 5 < k1.length
    · rw [if_pos hc] at h
      injection h with h2
      subst h2
      exact ⟨List.mem_cons_self _ _, hc.1, hc.2⟩
    · rw [if_neg hc] at h
      have := ih h
      exact ⟨List.mem_cons_of_mem _ this.1, this.2⟩

/-- `re.sub(r'([.,;:!?])([A-Za-z])', ...)` does not touch an all-lower-case
word (no punctuation present). -/
theorem punctLetterSub_eq_self_of :
    ∀ s : Str, (∀ c ∈ s, 97 ≤ c.toNat ∧ c.toNat ≤ 122) → punctLetterSub s = s := by
  intro s
  induction s with
  | nil => intro _; rfl
  | cons a rest ih =>
    intro h
    cases rest with
    | nil => rfl
    | cons b rest2 =>
      have ha := h a (List.mem_cons_self a (b :: rest2))
      have hpunct : (a == '.' || a == ',' || a == ';' || a == ':' || a == '!' || a == '?') = false := by
        simp only [Bool.or_eq_false_iff, beq_eq_false_iff_ne, ne_eq]
        refine ⟨⟨⟨⟨⟨?_, ?_⟩, ?_⟩, ?_⟩, ?_⟩, ?_⟩ <;>
          (intro he; rw [he] at ha; revert ha; decide)
      show (if (a == '.' || a == ',' || a == ';' || a == ':' || a == '!' || a == '?') && isAlphaCh b
        then a :: ' ' :: b :: punctLetterSub rest2
        else a :: punctLetterSub (b :: rest2)) = a :: b :: rest2
      rw [hpunct, Bool.false_and, if_neg (by simp)]
      rw [ih (fun c hc => h c (List.mem_cons_of_mem a hc))]

/-- Every `common_concatenations` key is not all-lower-case, or longer than
ten characters, or a string that the error battery itself flags (and that
the never-flag allowlist does not contain). -/
theorem concatKeys_classified : ∀ kv ∈ commonConcatList,
    allLowerAlpha kv.1 = false ∨ 10 < kv.1.length ∨
    (¬(kv.1 ∈ commonTermsList) ∧ tripleFlag kv.1 = true) := by decide

/-- No entry of the never-flag allowlist is a `common_concatenations` key
or contains one as a substring. -/
theorem commonTerms_concat_free : ∀ t ∈ commonTermsList,
    assocFindStr commonConcatList t = none ∧ concatSubstFind t commonConcatList = none := by
  decide

/-- Every `common_concatenations` key has at least five characters. -/
theorem concatKeys_long : ∀ kv ∈ commonConcatList, 4 < kv.1.length := by decide

/-- An unflagged token (length 3–10, all lower-case letters, not a key of
the active map) matches no `common_concatenations` entry, exactly or as a
substring host. -/
theorem concatFree_of_unflagged (S : List Str) (cmap : List (Str × Str)) (token : Str)
    (h2 : 2 ≤ token.length) (h10 : token.length ≤ 10)
    (hl : allLowerAlpha token = true)
    (hmap : dictGet? cmap token = none)
    (hflag : isLikelyError S cmap token = false) :
    assocFindStr commonConcatList token = none ∧
    concatSubstFind token commonConcatList = none := by
  have hlow : lowerStr token = token := lowerStr_eq_self_of hl
  by_cases hct : token ∈ commonTermsList
  · exact commonTerms_concat_free token hct
  · by_cases hlen : token.length ≤ 2
    · constructor
      · cases hfind : assocFindStr commonConcatList token with
        | none => rfl
        | some v =>
          exfalso
          have hmem := assocFindStr_some hfind
          have hlong := concatKeys_long (token, v) hmem
          dsimp only at hlong
          omega
      · cases hfind : concatSubstFind token commonConcatList with
        | none => rfl
        | some kv =>
          exfalso
          obtain ⟨hmem, hsub, hklen⟩ := concatSubstFind_some hfind
          have := isSubstr_length_le hsub
          omega
    · have hmp : matchesErrorPatterns token = false := by
        cases hb : matchesErrorPatterns token
        · rfl
        · exfalso
          unfold isLikelyError at hflag
          rw [if_neg (by omega : ¬ token.length < 2)] at hflag
          rw [if_neg (fun hh => hlen hh.1)] at hflag
          rw [if_neg (by rw [hlow]; exact fun hh => hct (hh.elim id id))] at hflag
          rw [hmap] at hflag
          rw [if_neg (by simp)] at hflag
          rw [if_pos hb] at hflag
          cases hflag
      constructor
      · cases hfind : assocFindStr commonConcatList token with
        | none => rfl
        | some v =>
          exfalso
          have hmem := assocFindStr_some hfind
          rcases concatKeys_classified (token, v) hmem with hbad | hbad | hbad
          · dsimp only at hbad
            rw [hl] at hbad
            cases hbad
          · dsimp only at hbad
            omega
          · have hmp2 := matchesErrorPatterns_of_tripleFlag hbad.2
            rw [hmp] at hmp2
            cases hmp2
      · cases hfind : concatSubstFind token commonConcatList with
        | none => rfl
        | some kv =>
          exfalso
          obtain ⟨hmem, hsub, hklen⟩ := concatSubstFind_some hfind
          rcases concatKeys_classified kv hmem with hbad | hbad | hbad
          · rw [allLowerAlpha_of_isSubstr hsub hl] at hbad
            cases hbad
          · have := isSubstr_length_le hsub
            omega
          · have hmp2 := matchesErrorPatterns_of_tripleFlag
              (tripleFlag_of_isSubstr hsub hbad.2)
            rw [hmp] at hmp2
            cases hmp2

/-- Claim C4 (amended): identity fallback on clean tokens.  For every
common-word set, every active correction map, and every token of two to
ten lower-case ASCII letters that is not a key of the map and that
`_is_likely_error` does not flag, `_generate_correction` returns the token
unchanged.  (The unrestricted claim is false: unflagged tokens such as
"Karma" or "dharmakarma" are still rewritten, see the counterexample.) -/
theorem claim_C4_amended (S : List Str) (cmap : List (Str × Str)) (token : Str)
    (h2 : 2 ≤ token.length) (h10 : token.length ≤ 10)
    (hl : allLowerAlpha token = true)
    (hmap : dictGet? cmap token = none)
    (hflag : isLikelyError S cmap token = false) :
    generateCorrection S cmap token = token := by
  have hchars := allLowerAlpha_mem hl
  have hstrip : stripStr token = token :=
    stripStr_eq_self_of (fun c hc => isSpaceCh_false_of_lower (hchars c hc))
  have hlow : lowerStr token = token := lowerStr_eq_self_of hl
  have hne : token ≠ [] := by
    intro hh; rw [hh] at h2; simp at h2
  have hpyalpha : pyIsAlpha token = true := by
    unfold pyIsAlpha
    rw [List.isEmpty_eq_false_iff_exists_mem.mpr
      ⟨token.head hne, List.head_mem hne⟩]
    rw [List.all_eq_true.mpr (fun c hc => isAlphaCh_true_of_lower (hchars c hc))]
    rfl
  have hnospace : ¬(' ' ∈ token) := by
    intro hh
    have hc := hchars ' ' hh
    have h32 : (' ' : Char).toNat = 32 := rfl
    omega
  have hadjF : hasAdj isLowerCh isUpperCh token = false :=
    hasAdj_eq_false_of token (fun c hc => isUpperCh_false_of_lower (hchars c hc))
  have hpunctid : punctLetterSub token = token :=
    punctLetterSub_eq_self_of token hchars
  have hpyupper : pyIsUpper token = false := by
    unfold pyIsUpper
    rw [List.any_eq_true.mpr ⟨token.head hne, List.head_mem hne,
      isLowerCh_true_of_lower (hchars _ (List.head_mem hne))⟩]
    simp
  obtain ⟨hassoc, hsubst⟩ :=
    concatFree_of_unflagged S cmap token h2 h10 hl hmap hflag
  have hfinal : genFinal S token token = token := by
    unfold genFinal
    rw [if_neg (fun hh => hh rfl)]
    by_cases hcw : lowerStr token ∈ commonWords S
    · rw [if_pos hcw, hlow]
    · rw [if_neg hcw]
      rw [if_neg (fun hh => by rw [hpyupper] at hh; cases hh.1)]
      rw [if_neg (fun hh => hcw hh.2)]
  have hlong : genLongSplit S token token = token := by
    unfold genLongSplit
    rw [if_neg (fun hh => absurd hh.1 (by omega))]
    exact hfinal
  have hspace : genSpaceSplit S token token = token := by
    unfold genSpaceSplit
    rw [if_neg hnospace]
    exact hlong
  have hafter : genAfterI S token token = token := by
    unfold genAfterI
    rw [hpunctid]
    exact hspace
  have histep : genIStep S token token = token := by
    unfold genIStep
    rw [if_neg ?hni]
    case hni =>
      intro hh
      rcases hh with hh | hh
      · exact hnospace (mem_of_isSubstr hh ' ' (by decide))
      · exact hnospace (mem_of_isSubstr hh ' ' (by decide))
    exact hafter
  have hcamel : genCamel S token token = token := by
    unfold genCamel
    rw [if_neg (fun hh => by rw [hadjF] at hh; cases hh)]
    exact histep
  unfold generateCorrection
  rw [if_neg (by omega : ¬ token.length < 2)]
  dsimp only
  rw [hstrip, hmap]
  dsimp only
  rw [hassoc]
  dsimp only
  rw [hsubst]
  dsimp only
  rw [if_neg (fun hh => by rw [hpyalpha] at hh; cases hh.2)]
  exact hcamel

/-- Claim C4 (counterexample): `_generate_correction` is not the identity
on all unflagged non-key tokens.  "Karma" is not flagged and not a key,
yet is rewritten to "karma"; "dharmakarma" is not flagged, yet is split
into "dharma karma". -/
theorem claim_C4_counterexample :
    (isLikelyError [] [] ("Karma".toList) = false ∧
      dictGet? [] ("Karma".toList) = none ∧
      generateCorrection [] [] ("Karma".toList) ≠ "Karma".toList) ∧
    (isLikelyError [] [] ("dharmakarma".toList) = false ∧
      generateCorrection [] [] ("dharmakarma".toList) = "dharma karma".toList) := by
  with_unfolding_all decide

/-- Claim C4 witness: the amended identity fallback evaluated at the clean
token "karma" with an empty corpus and an empty map. -/
theorem claim_C4_witness :
    isLikelyError [] [] ("karma".toList) = false ∧
    generateCorrection [] [] ("karma".toList) = "karma".toList :=
  ⟨by with_unfolding_all decide,
    claim_C4_amended [] [] ("karma".toList) (by decide) (by decide) (by decide) rfl
      (by with_unfolding_all decide)⟩

/-- When the stripped input is a key of the correction map, `correct_text`
returns the stored value verbatim. -/
theorem correctText_shortcut (S : List Str) (m : List (Str × Str)) (x v : Str)
    (hx : x ≠ []) (hv : dictGet? m (stripStr x) = some v) :
    correctText S m x = v := by
  unfold correctText
  rw [if_neg hx, hv]

/-- Claim C3 (counterexample): `correct_text` is not idempotent.  With the
map built from an empty corpus, correcting "theSupremePersonality" yields
"the Supreme Personality", and a second application changes it again (to
"the Supreme Per sonality"). -/
theorem claim_C3_counterexample :
    correctText [] (buildCorrectionMap [] [])
        (correctText [] (buildCorrectionMap [] []) ("theSupremePersonality".toList)) ≠
      correctText [] (buildCorrectionMap [] []) ("theSupremePersonality".toList) := by
  with_unfolding_all decide

/-- Claim C3 (amended): `correct_text` is not idempotent.  A stripped
input that is a key of the map is replaced by the stored value verbatim
(before any re-processing or safety check), and the map built by
`build_correction_map` stores values that are themselves altered by a
further application — "the Supreme Personality", the stored correction of
"theSupremePersonality", is re-corrected on a second pass. -/
theorem claim_C3_amended :
    (∀ (S : List Str) (m : List (Str × Str)) (x v : Str), x ≠ [] →
        dictGet? m (stripStr x) = some v → correctText S m x = v) ∧
    dictGet? (buildCorrectionMap [] []) ("theSupremePersonality".toList) =
        some ("the Supreme Personality".toList) ∧
    correctText [] (buildCorrectionMap [] []) ("the Supreme Personality".toList) ≠
      "the Supreme Personality".toList :=
  ⟨correctText_shortcut, by with_unfolding_all decide, by with_unfolding_all decide⟩

/-- Claim C3 witness: the map-shortcut law evaluated at the key "donot" of
the common-errors table. -/
theorem claim_C3_witness :
    correctText [] commonErrorsList ("donot".toList) = "do not".toList :=
  claim_C3_amended.1 [] commonErrorsList ("donot".toList) ("do not".toList)
    (by decide) (by with_unfolding_all decide)

/-- The final length-safety branch of `correct_text`: the returned string
is the original or is at least 0.8 of its length. -/
theorem correctText_safety_branch (t r : Str) (h : 10 < t.length) :
    (if 10 < t.length ∧ 5 * r.length < 4 * t.length then t else r) = t ∨
    4 * t.length ≤
      5 * (if 10 < t.length ∧ 5 * r.length < 4 * t.length then t else r).length := by
  by_cases hc : 10 < t.length ∧ 5 * r.length < 4 * t.length
  · left
    rw [if_pos hc]
  · right
    rw [if_neg hc]
    rcases Nat.lt_or_ge (5 * r.length) (4 * t.length) with hlt | hge
    · exact absurd ⟨h, hlt⟩ hc
    · exact hge

/-- Claim C7 (counterexample): the whole-text map shortcut bypasses the
length-safety check — on the eleven-character input consisting of six
spaces and "th is", `correct_text` returns "this", which is neither the
original nor at least 0.8 of its length. -/
theorem claim_C7_counterexample :
    (10 < ("      th is".toList).length) ∧
    correctText [] (buildCorrectionMap [] []) ("      th is".toList) ≠
      "      th is".toList ∧
    5 * (correctText [] (buildCorrectionMap [] []) ("      th is".toList)).length <
      4 * ("      th is".toList).length := by
  with_unfolding_all decide

/-- Claim C7 (amended): the length-safety guarantee holds for every input
longer than ten characters whose stripped form is NOT a key of the
correction map: the result is the original text or has length at least
0.8 of it (the float comparison `len(result) < len(text) * 0.8` modelled
exactly as `5*len(result) < 4*len(text)`).  Map-key inputs bypass the
check, see the counterexample. -/
theorem claim_C7_amended (S : List Str) (m : List (Str × Str)) (text : Str)
    (hk : dictGet? m (stripStr text) = none) (hlen : 10 < text.length) :
    correctText S m text = text ∨
    4 * text.length ≤ 5 * (correctText S m text).length := by
  have hne : text ≠ [] := by
    intro hh; rw [hh] at hlen; simp at hlen
  unfold correctText
  rw [if_neg hne, hk]
  dsimp only
  exact correctText_safety_branch text _ hlen

/-- Claim C7 witness: the amended safety guarantee evaluated on a
twelve-letter input with the empty map. -/
theorem claim_C7_witness :
    dictGet? [] (stripStr ("abcdefghijkl".toList)) = none ∧
    (correctText [] [] ("abcdefghijkl".toList) = "abcdefghijkl".toList ∨
      4 * ("abcdefghijkl".toList).length ≤
        5 * (correctText [] [] ("abcdefghijkl".toList)).length) :=
  ⟨rfl, claim_C7_amended [] [] ("abcdefghijkl".toList) rfl (by decide)⟩

/-- A pair in `dictSet m a b` is the inserted pair or one already in `m`. -/
theorem dictSet_mem {m : List (Str × Str)} {a b : Str} {p : Str × Str}
    (h : p ∈ dictSet m a b) : p = (a, b) ∨ p ∈ m := by
  unfold dictSet at h
  by_cases hk : m.any (fun q => decide (q.1 = a)) = true
  · rw [if_pos hk] at h
    rcases List.mem_map.mp h with ⟨q, hq, hqe⟩
    by_cases hqa : q.1 = a
    · rw [if_pos hqa] at hqe
      exact Or.inl hqe.symm
    · rw [if_neg hqa] at hqe
      exact Or.inr (hqe ▸ hq)
  · rw [if_neg hk] at h
    rcases List.mem_append.mp h with h1 | h1
    · exact Or.inr h1
    · exact Or.inl (List.mem_singleton.mp h1)

/-- Folding `dict[k] = v` writes over a map preserves the no-self-map
invariant when every written pair also satisfies it. -/
theorem fold_dictSet_ne (l : List (Str × Str)) :
    ∀ m : List (Str × Str), (∀ p ∈ m, p.1 ≠ p.2) → (∀ p ∈ l, p.1 ≠ p.2) →
    ∀ p ∈ l.foldl (fun acc kv => dictSet acc kv.1 kv.2) m, p.1 ≠ p.2 := by
  induction l with
  | nil => intro m hm _ p hp; exact hm p hp
  | cons kv rest ih =>
    intro m hm hl p hp
    refine ih (dictSet m kv.1 kv.2) ?_ (fun q hq => hl q (List.mem_cons_of_mem kv hq)) p hp
    intro q hq
    rcases dictSet_mem hq with hq1 | hq1
    · rw [hq1]
      exact hl kv (List.mem_cons_self kv rest)
    · exact hm q hq1

/-- The corpus pass of `build_correction_map` only stores pairs whose
correction differs from the word. -/
theorem pdf_fold_ne (S : List Str) (tokens : List Str) :
    ∀ m : List (Str × Str), (∀ p ∈ m, p.1 ≠ p.2) →
    ∀ p ∈ tokens.foldl (fun m w =>
      if isLikelyError S [] w then
        let c := generateCorrection S [] w
        if c ≠ w then dictSet m w c else m
      else m) m, p.1 ≠ p.2 := by
  induction tokens with
  | nil => intro m hm p hp; exact hm p hp
  | cons w rest ih =>
    intro m hm p hp
    rw [List.foldl_cons] at hp
    refine ih _ ?_ p hp
    intro q hq
    by_cases he : isLikelyError S [] w = true
    · rw [if_pos he] at hq
      dsimp only at hq
      by_cases hc : generateCorrection S [] w ≠ w
      · rw [if_pos hc] at hq
        rcases dictSet_mem hq with hq1 | hq1
        · rw [hq1]
          exact fun hh => hc hh.symm
        · exact hm q hq1
      · rw [if_neg hc] at hq
        exact hm q hq
    · rw [if_neg he] at hq
      exact hm q hq

/-- Claim C8: no entry of the map returned by `build_correction_map` is a
no-op — for every common-word set and every corpus token list, every
stored key differs from its stored correction.  The corpus pass only
stores a pair after checking `correction != word`, and every hand-seeded
`common_errors` pair also differs. -/
theorem claim_C8_no_noop (S : List Str) (tokens : List Str) (k v : Str)
    (h : (k, v) ∈ buildCorrectionMap S tokens) : k ≠ v := by
  unfold buildCorrectionMap at h
  have hce : ∀ p ∈ commonErrorsList, p.1 ≠ p.2 := by decide
  have hpdf := pdf_fold_ne S tokens [] (by intro p hp; cases hp)
  exact fold_dictSet_ne commonErrorsList _ hpdf hce (k, v) h

/-- Claim C8 witness: the stored pair ("th is", "this") of the map built
from an empty corpus has distinct key and value. -/
theorem claim_C8_witness :
    (("th is".toList, "this".toList) ∈ buildCorrectionMap [] []) ∧
    "th is".toList ≠ "this".toList :=
  ⟨by with_unfolding_all decide,
    claim_C8_no_noop [] [] ("th is".toList) ("this".toList)
      (by with_unfolding_all decide)⟩

/- ----------------------------------------------------------------- -/
/- VerseIndexer lemmas (claim C6)                                     -/
/- ----------------------------------------------------------------- -/

/-- The digit characters of small values. -/
theorem digitChar_toNat : ∀ n, n < 10 → (digitChar n).toNat = 48 + n := by decide

/-- Parsing inverts the digit character on small values. -/
theorem digitVal_digitChar : ∀ n, n < 10 → digitVal (digitChar n) = n := by decide

/-- Every character of a decimal representation is an ASCII digit. -/
theorem natDigitsAux_digits :
    ∀ fuel n, n < fuel → ∀ c ∈ natDigitsAux fuel n, 48 ≤ c.toNat ∧ c.toNat ≤ 57 := by
  intro fuel
  induction fuel with
  | zero => intro n hn; omega
  | succ f ih =>
    intro n hn c hc
    unfold natDigitsAux at hc
    by_cases h10 : n < 10
    · rw [if_pos h10] at hc
      rcases List.mem_singleton.mp hc with rfl
      rw [digitChar_toNat n h10]
      omega
    · rw [if_neg h10] at hc
      rcases List.mem_append.mp hc with h1 | h1
      · have hdiv : n / 10 < n := Nat.div_lt_self (by omega) (by omega)
        exact ih (n / 10) (by omega) c h1
      · rcases List.mem_singleton.mp h1 with rfl
        rw [digitChar_toNat (n % 10) (Nat.mod_lt n (by omega))]
        have := Nat.mod_lt n (show 0 < 10 by omega)
        omega

/-- Every character of `str(n)` is an ASCII digit. -/
theorem natDigits_digits (n : Nat) :
    ∀ c ∈ natDigits n, 48 ≤ c.toNat ∧ c.toNat ≤ 57 :=
  natDigitsAux_digits (n + 1) n (by omega)

/-- `str(n)` is never empty. -/
theorem natDigits_ne_nil (n : Nat) : natDigits n ≠ [] := by
  unfold natDigits natDigitsAux
  by_cases h10 : n < 10
  · rw [if_pos h10]
    simp
  · rw [if_neg h10]
    simp

/-- `parseDigits` over a snoc. -/
theorem parseDigits_snoc (a : Str) (d : Char) :
    parseDigits (a ++ [d]) = 10 * parseDigits a + digitVal d := by
  unfold parseDigits
  rw [List.foldl_append]
  rfl

/-- `parseDigits` inverts the fuelled decimal representation. -/
theorem natDigitsAux_parse :
    ∀ fuel n, n < fuel → parseDigits (natDigitsAux fuel n) = n := by
  intro fuel
  induction fuel with
  | zero => intro n hn; omega
  | succ f ih =>
    intro n hn
    unfold natDigitsAux
    by_cases h10 : n < 10
    · rw [if_pos h10]
      show 10 * 0 + digitVal (digitChar n) = n
      rw [digitVal_digitChar n h10]
      omega
    · rw [if_neg h10]
      rw [parseDigits_snoc]
      have hdiv : n / 10 < n := Nat.div_lt_self (by omega) (by omega)
      rw [ih (n / 10) (by omega), digitVal_digitChar (n % 10) (Nat.mod_lt n (by omega))]
      omega

/-- `parseDigits` inverts `str` on naturals. -/
theorem natDigits_parse (n : Nat) : parseDigits (natDigits n) = n :=
  natDigitsAux_parse (n + 1) n (by omega)

/-- Decimal representation is injective on naturals. -/
theorem natDigits_inj {m n : Nat} (h : natDigits m = natDigits n) : m = n := by
  rw [← natDigits_parse m, h, natDigits_parse]

/-- `str` is injective on integers. -/
theorem intRepr_inj {i j : Int} (h : intRepr i = intRepr j) : i = j := by
  unfold intRepr at h
  by_cases hi : i < 0 <;> by_cases hj : j < 0
  · rw [if_pos hi, if_pos hj] at h
    injection h with h1 h2
    have := natDigits_inj h2
    omega
  · rw [if_pos hi, if_neg hj] at h
    exfalso
    cases hd : natDigits j.toNat with
    | nil => exact natDigits_ne_nil _ hd
    | cons c tl =>
      rw [hd] at h
      injection h with h1 _
      have := natDigits_digits j.toNat c (hd ▸ List.mem_cons_self c tl)
      rw [← h1] at this
      revert this
      decide
  · rw [if_neg hi, if_pos hj] at h
    exfalso
    cases hd : natDigits i.toNat with
    | nil => exact natDigits_ne_nil _ hd
    | cons c tl =>
      rw [hd] at h
      injection h with h1 _
      have := natDigits_digits i.toNat c (hd ▸ List.mem_cons_self c tl)
      rw [h1] at this
      revert this
      decide
  · rw [if_neg hi, if_neg hj] at h
    have := natDigits_inj h
    omega

/-- `str(i)` never contains a dot. -/
theorem intRepr_no_dot (i : Int) : '.' ∉ intRepr i := by
  unfold intRepr
  by_cases hi : i < 0
  · rw [if_pos hi]
    intro hm
    rcases List.mem_cons.mp hm with h1 | h1
    · cases h1
    · have := natDigits_digits _ _ h1
      revert this
      decide
  · rw [if_neg hi]
    intro hm
    have := natDigits_digits _ _ hm
    revert this
    decide

/-- A string splits in at most one way around a separator absent from
both left parts. -/
theorem append_dot_inj :
    ∀ (a a2 b b2 : Str), '.' ∉ a → '.' ∉ a2 →
    a ++ '.' :: b = a2 ++ '.' :: b2 → a = a2 ∧ b = b2 := by
  intro a
  induction a with
  | nil =>
    intro a2 b b2 _ ha2 h
    cases a2 with
    | nil =>
      injection h with _ h2
      exact ⟨rfl, h2⟩
    | cons c a3 =>
      injection h with h1 _
      exact absurd (h1 ▸ List.mem_cons_self c a3) ha2
  | cons c a3 ih =>
    intro a2 b b2 ha ha2 h
    cases a2 with
    | nil =>
      injection h with h1 _
      exact absurd (h1 ▸ List.mem_cons_self c a3) ha
    | cons c2 a4 =>
      injection h with h1 h2
      obtain ⟨hl, hr⟩ := ih a4 b b2 (fun hm => ha (List.mem_cons_of_mem c hm))
        (fun hm => ha2 (List.mem_cons_of_mem c2 hm)) h2
      exact ⟨by rw [h1, hl], hr⟩

/-- The verse key determines its chapter and verse uniquely. -/
theorem verseKey_inj {c v c2 v2 : Int} (h : verseKey c v = verseKey c2 v2) :
    c = c2 ∧ v = v2 := by
  unfold verseKey at h
  obtain ⟨h1, h2⟩ := append_dot_inj _ _ _ _ (intRepr_no_dot c) (intRepr_no_dot c2) h
  exact ⟨intRepr_inj h1, intRepr_inj h2⟩

/-- A pair in `dictSetV m k v` is the inserted pair or one already in
`m`. -/
theorem dictSetV_mem {m : List (Str × (Str × Nat))} {k : Str} {v : Str × Nat}
    {p : Str × (Str × Nat)} (h : p ∈ dictSetV m k v) : p = (k, v) ∨ p ∈ m := by
  unfold dictSetV at h
  by_cases hk : m.any (fun q => decide (q.1 = k)) = true
  · rw [if_pos hk] at h
    rcases List.mem_map.mp h with ⟨q, hq, hqe⟩
    by_cases hqa : q.1 = k
    · rw [if_pos hqa] at hqe
      exact Or.inl hqe.symm
    · rw [if_neg hqa] at hqe
      exact Or.inr (hqe ▸ hq)
  · rw [if_neg hk] at h
    rcases List.mem_append.mp h with h1 | h1
    · exact Or.inr h1
    · exact Or.inl (List.mem_singleton.mp h1)

/-- Saving the current verse only writes keys of verse-key shape. -/
theorem saveCurrent_keys (pageNum : Nat) (st : VSt)
    (h : ∀ p ∈ st.index, ∃ c v : Int, p.1 = verseKey c v) :
    ∀ p ∈ (saveCurrent pageNum st).index, ∃ c v : Int, p.1 = verseKey c v := by
  intro p hp
  unfold saveCurrent at hp
  rcases hch : st.chapter with _ | c <;> rcases hve : st.verse with _ | v <;>
    rw [hch, hve] at hp <;> dsimp only at hp
  · exact h p hp
  · exact h p hp
  · exact h p hp
  · by_cases hvt : st.vtext ≠ []
    · rw [if_pos hvt] at hp
      dsimp only at hp
      rcases dictSetV_mem hp with h1 | h1
      · exact ⟨c, v, by rw [h1]⟩
      · exact h p h1
    · rw [if_neg hvt] at hp
      exact h p hp

/-- The line loop only writes keys of verse-key shape. -/
theorem verseLineLoop_keys (pageNum : Nat) (l : List Str) (st : VSt)
    (hst : ∀ p ∈ st.index, ∃ c v : Int, p.1 = verseKey c v) :
    ∀ p ∈ (verseLineLoop pageNum l st).index, ∃ c v : Int, p.1 = verseKey c v := by
  have main : ∀ n (l : List Str) (st : VSt), l.length ≤ n →
      (∀ p ∈ st.index, ∃ c v : Int, p.1 = verseKey c v) →
      ∀ p ∈ (verseLineLoop pageNum l st).index, ∃ c v : Int, p.1 = verseKey c v := by
    intro n
    induction n with
    | zero =>
      intro l st hl hst
      have hnil : l = [] := List.length_eq_zero.mp (by omega)
      subst hnil
      exact hst
    | succ n ih =>
      intro l st hl hst
      match l with
      | [] => exact hst
      | line :: rest =>
        have hrest : rest.length ≤ n := by
          simp only [List.length_cons] at hl
          omega
        rw [verseLineLoop]
        by_cases htext : isSubstr ("TEXT ".toList) line = true ∧
            isSubstr ("Bg".toList) line = true
        · rw [if_pos htext]
          rcases htp : textPartsLoop (st.chapter, st.verse) (splitWs line) with ⟨⟨c2, v2⟩, b⟩
          cases b
          · dsimp only
            exact ih rest _ hrest hst
          · dsimp only
            cases rest with
            | nil => exact hst
            | cons nxt rest2 =>
              dsimp only
              refine ih rest2 _ ?_ hst
              simp only [List.length_cons] at hrest
              omega
        · rw [if_neg htext]
          rcases hsv : searchVerse line with _ | ⟨d1, d2⟩
          · dsimp only
            rcases hch : st.chapter with _ | c <;> rcases hve : st.verse with _ | v <;>
              dsimp only
            · exact ih rest _ hrest hst
            · exact ih rest _ hrest hst
            · exact ih rest _ hrest hst
            · by_cases hcond : line ≠ [] ∧ ¬(("TEXT".toList).isPrefixOf line = true) ∧
                  ¬(("Bg".toList).isPrefixOf line = true)
              · rw [if_pos hcond]
                exact ih rest _ hrest hst
              · rw [if_neg hcond]
                exact ih rest _ hrest hst
          · dsimp only
            have hsave := saveCurrent_keys pageNum st hst
            cases rest with
            | nil => exact hsave
            | cons nxt rest2 =>
              dsimp only
              refine ih rest2 _ ?_ hsave
              simp only [List.length_cons] at hrest
              omega
  exact main l.length l st (le_refl _) hst

/-- The page loop only writes keys of verse-key shape. -/
theorem processPages_keys :
    ∀ (pages : List Str) (pageNum : Nat) (st : VSt),
    (∀ p ∈ st.index, ∃ c v : Int, p.1 = verseKey c v) →
    ∀ p ∈ (processPages pages pageNum st).index, ∃ c v : Int, p.1 = verseKey c v := by
  intro pages
  induction pages with
  | nil => intro pageNum st hst; exact hst
  | cons text rest ih =>
    intro pageNum st hst
    rw [processPages]
    by_cases he : text = []
    · rw [if_pos he]
      exact ih _ _ hst
    · rw [if_neg he]
      exact ih _ _ (saveCurrent_keys _ _ (verseLineLoop_keys _ _ _ hst))

/-- Every key of the built verse index has verse-key shape. -/
theorem buildVerseIndex_keys (pages : List Str) :
    ∀ p ∈ buildVerseIndex pages, ∃ c v : Int, p.1 = verseKey c v := by
  unfold buildVerseIndex
  exact saveCurrent_keys _ _ (processPages_keys _ _ _ (by intro p hp; cases hp))

/-- Claim C6 (amended): every key stored in the verse index is
`f"{chapter}.{verse}"` for exactly one integer pair — the decimal
representation contains no dot and is injective, so a key decodes
uniquely.  The `chapter ≥ 1` / `verse ≥ 1` half of the original claim is
false, see the counterexample. -/
theorem claim_C6_amended (pages : List Str) (key : Str)
    (h : key ∈ (buildVerseIndex pages).map Prod.fst) :
    ∃ c v : Int, key = verseKey c v ∧
      ∀ c2 v2 : Int, key = verseKey c2 v2 → c2 = c ∧ v2 = v := by
  rcases List.mem_map.mp h with ⟨p, hp, rfl⟩
  obtain ⟨c, v, hcv⟩ := buildVerseIndex_keys pages p hp
  refine ⟨c, v, hcv, ?_⟩
  intro c2 v2 h2
  exact verseKey_inj (h2.symm.trans hcv)

/-- Claim C6 (counterexample): a page whose text begins with the line
"0.0" puts the key "0.0" into the verse index — the verse pattern
`(\d+)\.(\d+)` accepts zero, so stored chapters and verses need not be at
least one. -/
theorem claim_C6_counterexample :
    ("0.0".toList ∈ (buildVerseIndex
        (List.replicate 10 [] ++ ["0.0\nfoo".toList])).map Prod.fst) ∧
    ¬∃ c v : Int, 1 ≤ c ∧ 1 ≤ v ∧ "0.0".toList = verseKey c v := by
  constructor
  · with_unfolding_all decide
  · rintro ⟨c, v, hc, hv, he⟩
    have h00 : "0.0".toList = verseKey 0 0 := by with_unfolding_all decide
    obtain ⟨h1, h2⟩ := verseKey_inj (he.symm.trans h00)
    omega

/-- Claim C6 witness: the unique-decoding guarantee evaluated at the key
"0.0" of the index built from the counterexample page list. -/
theorem claim_C6_witness :
    ("0.0".toList ∈ (buildVerseIndex
        (List.replicate 10 [] ++ ["0.0\nfoo".toList])).map Prod.fst) ∧
    ∃ c v : Int, "0.0".toList = verseKey c v ∧
      ∀ c2 v2 : Int, "0.0".toList = verseKey c2 v2 → c2 = c ∧ v2 = v :=
  ⟨by with_unfolding_all decide,
    claim_C6_amended (List.replicate 10 [] ++ ["0.0\nfoo".toList]) ("0.0".toList)
      (by with_unfolding_all decide)⟩
